import Mathlib

/-!
The program `pm`: task normalisation and terminal layout.

A verification development for `state/task.go` and `ui/ui.go`.

**Strings.**

A Go string is a byte sequence that the standard library reads through its
UTF-8 decoder.  A string is modelled by the sequence of elements the decoder
yields for it: each element is either a code point with a well-formed encoding
(`Rune.valid`) or a single byte that is not part of a well-formed encoding
(`Rune.invalid`), which Go decodes as U+FFFD with width one.  `len` counts
bytes.  All library functions used by the program (`strings.TrimSpace`,
`strings.ToUpper`, `strings.Split` on `" "`, the regular expression `\s+`)
act element by element on this sequence.

The Unicode upper-case table behind `unicode.ToUpper` is not part of the
repository; it is a parameter (`upperCase`) applied to code points above
U+007F only, as in the library.

**Input, output and the world outside.**

Standard output is the sequence of calls made on `fmt`; standard input is the
sequence of results that the successive calls of `ReadString` give.  What
`Task.Edit` meets outside the program (the temporary file, the environment
variables, the child process) is an explicit environment, `EditEnv`.  The
temporary file holds text; `Encode` and `Decode` follow `encoding/json` on that
text: the escaping of strings by the encoder, and the reading of one JSON value
and its storing into a `Task` by the decoder.
-/

namespace Pm

/-! ## Go strings -/

/-- One decoded element of a Go string: a Unicode scalar value `r` in its
well-formed encoding, or a byte `b` outside any well-formed encoding. -/
inductive Rune where
  | valid (r : Nat)
  | invalid (b : Nat)
  deriving DecidableEq, Repr

/-- A Go string, as the sequence of its decoded elements. -/
abbrev GoString := List Rune

/-- Value of `utf8.RuneError`. -/
def RuneError : Nat := 0xFFFD

/-- Code point reported by the decoder for an element. -/
def Rune.value : Rune → Nat
  | .valid r => r
  | .invalid _ => RuneError

/-- Number of bytes `utf8.RuneLen` gives for a code point. -/
def RuneLen (r : Nat) : Nat :=
  if r < 0x80 then 1 else if r < 0x800 then 2 else if r < 0x10000 then 3 else 4

/-- Number of bytes an element occupies in the string. -/
def Rune.size : Rune → Nat
  | .valid r => RuneLen r
  | .invalid _ => 1

/-- Go builtin `len` on a string: its length in bytes. -/
def len (s : GoString) : Int := ((s.map Rune.size).sum : Nat)

/-- A string literal of the source as a Go string. -/
def lit (s : String) : GoString := s.data.map (fun c => Rune.valid c.toNat)

/-- The space character U+0020. -/
def SP : Rune := .valid 0x20

/-- The line feed character U+000A. -/
def LF : Rune := .valid 0x0A

/-! ## Library functions used by `state/task.go` -/

/-- Library `unicode.IsSpace`: the Latin-1 spaces and the `White_Space`
property above Latin-1. -/
def IsSpace (r : Nat) : Bool :=
  if r ≤ 0xFF then
    r == 0x09 || r == 0x0A || r == 0x0B || r == 0x0C || r == 0x0D || r == 0x20
      || r == 0x85 || r == 0xA0
  else
    r == 0x1680 || (0x2000 ≤ r && r ≤ 0x200A) || r == 0x2028 || r == 0x2029
      || r == 0x202F || r == 0x205F || r == 0x3000

/-- Whether `unicode.IsSpace` holds of a decoded element. -/
def Rune.isSpace (x : Rune) : Bool := IsSpace x.value

/-- Library `strings.TrimSpace`: leading, then trailing, white space removed. -/
def TrimSpace (s : GoString) : GoString :=
  List.rdropWhile Rune.isSpace (List.dropWhile Rune.isSpace s)

/-- The regular expression class `\s` of Go's `regexp`: `[\t\n\f\r ]`. -/
def reSpace (r : Nat) : Bool :=
  r == 0x09 || r == 0x0A || r == 0x0C || r == 0x0D || r == 0x20

/-- Whether an element matches `\s`. -/
def Rune.isReSpace (x : Rune) : Bool := reSpace x.value

/-- Scan of `ReplaceAllString` for the pattern `\s+`; `inMatch` tells that the
previous element belonged to a match already replaced. -/
def replaceSpaceRuns (repl : GoString) : Bool → GoString → GoString
  | _, [] => []
  | inMatch, x :: rest =>
    if x.isReSpace then
      if inMatch then replaceSpaceRuns repl true rest
      else repl ++ replaceSpaceRuns repl true rest
    else x :: replaceSpaceRuns repl false rest

/-- The call `regexp.MustCompile("\\s+").ReplaceAllString(src, repl)`: every
maximal run of `\s` elements is replaced by `repl`. -/
def ReplaceAllString (src repl : GoString) : GoString :=
  replaceSpaceRuns repl false src

/-- Library `unicode.ToUpper`: ASCII letters by arithmetic, every other code
point through the case table `upperCase`. -/
def unicodeToUpper (upperCase : Nat → Nat) (r : Nat) : Nat :=
  if r ≤ 0x7F then
    if 0x61 ≤ r ∧ r ≤ 0x7A then r - (0x61 - 0x41) else r
  else upperCase r

/-- Library `strings.ToUpper`: every element is mapped by `unicode.ToUpper`; an
ill-formed byte is decoded as `RuneError` first and so is written back as a
well-formed code point. -/
def ToUpper (upperCase : Nat → Nat) (s : GoString) : GoString :=
  s.map (fun x => Rune.valid (unicodeToUpper upperCase x.value))

/-! ## `state/task.go` -/

/-- The task of `state/task.go`. -/
structure Task where
  Title : GoString
  Story : GoString
  deriving DecidableEq, Repr

/-- Errors made by `Normalize` with `errors.New`. -/
inductive NormalizeError where
  /-- Error `errors.New("title is empty")`. -/
  | titleIsEmpty
  /-- Error `errors.New("story is empty")`. -/
  | storyIsEmpty
  deriving DecidableEq, Repr

/-- Source function `trim`. -/
def trim (str : GoString) : GoString :=
  ReplaceAllString (TrimSpace str) (lit " ")

/-- Source method `Task.Normalize`: the task after the call and the returned
error (`none` for `nil`). -/
def Task.Normalize (upperCase : Nat → Nat) (t : Task) : Task × Option NormalizeError :=
  let title := ToUpper upperCase (trim t.Title)
  let story := trim t.Story
  if title = [] then (t, some .titleIsEmpty)
  else if story = [] then (t, some .storyIsEmpty)
  else ({ t with Title := title, Story := story }, none)

/-! ## Library functions used by `ui/ui.go` -/

/-- Library `strings.Split(s, sep)` for a separator `sep` of one byte: the
pieces of `s` between the occurrences of `sep`; one more piece than there are
occurrences. -/
def Split : GoString → Rune → List GoString
  | [], _ => [[]]
  | x :: rest, sep =>
    if x = sep then [] :: Split rest sep
    else
      match Split rest sep with
      | [] => [[x]]
      | w :: ws => (x :: w) :: ws

/-- The verb `%d` of `fmt.Sprintf` on an `int`. -/
def formatInt (i : Int) : GoString :=
  if i < 0 then Rune.valid 0x2D :: (Nat.toDigits 10 i.natAbs).map (fun c => Rune.valid c.toNat)
  else (Nat.toDigits 10 i.natAbs).map (fun c => Rune.valid c.toNat)

/-- An error of the input stream: `io.EOF` or another read failure. -/
inductive ReadError where
  | EOF
  | other (code : Nat)
  deriving DecidableEq, Repr

/-- What one call of `ReadString` returns: the data read and the error. -/
structure ReadResult where
  str : GoString
  err : Option ReadError
  deriving DecidableEq, Repr

/-- One call on standard output. -/
inductive Output where
  /-- The call `fmt.Print(a)`. -/
  | Print (a : GoString)
  /-- The call `fmt.Println(a...)`; `Println []` prints an empty line. -/
  | Println (a : List GoString)
  deriving DecidableEq, Repr

/-- The terminal of the process: what the coming calls of `ReadString('\n')` on
standard input return, in order (after the last one every read gives `io.EOF`),
and the calls made on standard output so far, oldest first. -/
structure Console where
  stdin : List ReadResult
  stdout : List Output
  deriving DecidableEq, Repr

/-- The call `ReadString('\n')` on the reader of standard input. -/
def ReadString (c : Console) : ReadResult × Console :=
  match c.stdin with
  | [] => (⟨[], some ReadError.EOF⟩, c)
  | r :: rest => (r, { c with stdin := rest })

/-- The call `fmt.Println(a...)`. -/
def Println (c : Console) (a : List GoString) : Console :=
  { c with stdout := c.stdout ++ [Output.Println a] }

/-- The call `fmt.Print(a)`. -/
def Print (c : Console) (a : GoString) : Console :=
  { c with stdout := c.stdout ++ [Output.Print a] }

/-- Modelled from the spec: the type `state.TaskQueue`, which is not among the
sources; an ordered sequence of tasks with `At(index)`, the task at an index,
and `LastOpenedIndex()`, the highest index considered opened. -/
structure TaskQueue where
  At : Int → Task
  LastOpenedIndex : Int

/-! ## `ui/ui.go` -/

/-- The struct `UI`; `rd` tells whether the reader has been made. -/
structure UI where
  rd : Bool
  nl : Bool
  width : Int
  deriving DecidableEq, Repr

/-- Source function `New`. -/
def New (width : Int) : UI := { rd := false, nl := false, width := width }

/-- Source method `UI.reader`: the reader is made on first use. -/
def UI.reader (u : UI) : UI := if u.rd = false then { u with rd := true } else u

/-- Source method `UI.newline`. -/
def UI.newline (u : UI) (c : Console) : UI × Console :=
  let c := if u.nl = true then Println c [] else c
  ({ u with nl := true }, c)

/-- The loop of `spaces`: `n` more rounds of `str += " "`. -/
def spacesLoop : Nat → GoString → GoString
  | 0, str => str
  | n + 1, str => spacesLoop n (str ++ lit " ")

/-- Source function `spaces`; the loop runs `count` times, not at all for a
negative `count`. -/
def spaces (count : Int) : GoString := spacesLoop count.toNat []

/-- The loop of `paragraph` from index `i` on, over the words not yet visited,
`n` being `len(wordList)`; returns `str`. -/
def paragraphLoop (width indent n : Int) : Int → List GoString → GoString → Int → GoString
  | _, [], str, _ => str
  | i, word :: rest, str, count =>
    let str := str ++ word
    let count := count + len word
    if i ≠ n - 1 then
      if count > width then
        paragraphLoop width indent n (i + 1) rest (str ++ (lit "\n" ++ spaces indent)) indent
      else
        paragraphLoop width indent n (i + 1) rest (str ++ lit " ") (count + 1)
    else
      paragraphLoop width indent n (i + 1) rest str count

/-- Source method `UI.paragraph`. -/
def UI.paragraph (u : UI) (str : GoString) (indent : Int) : GoString :=
  let wordList := Split str SP
  paragraphLoop u.width indent wordList.length 0 wordList [] 0

/-- An error returned by the queries: `errors.Wrap(err, "failed to query user")`
or the error of the read itself. -/
inductive UIError where
  | failedToQueryUser (cause : ReadError)
  | read (cause : ReadError)
  deriving DecidableEq, Repr

/-- The loop of `QueryYesNo` over the reads still to come. -/
def QueryYesNoLoop : List ReadResult → List Output → (Bool × Option UIError) × Console
  | [], out =>
    ((false, some (UIError.failedToQueryUser ReadError.EOF)),
      ⟨[], out ++ [Output.Print (lit "Enter y|n: ")]⟩)
  | r :: rest, out =>
    let out := out ++ [Output.Print (lit "Enter y|n: ")]
    match r.err with
    | some e => ((false, some (UIError.failedToQueryUser e)), ⟨rest, out⟩)
    | none =>
      if TrimSpace r.str = lit "y" then ((true, none), ⟨rest, out⟩)
      else if TrimSpace r.str = lit "n" then ((false, none), ⟨rest, out⟩)
      else QueryYesNoLoop rest out

/-- Source method `UI.QueryYesNo`. -/
def UI.QueryYesNo (u : UI) (c : Console) : (Bool × Option UIError) × UI × Console :=
  let (u, c) := u.newline c
  let u := u.reader
  let (res, c) := QueryYesNoLoop c.stdin c.stdout
  (res, u, c)

/-- Source method `UI.QueryLine`. -/
def UI.QueryLine (u : UI) (c : Console) : (GoString × Option UIError) × UI × Console :=
  let (u, c) := u.newline c
  let u := u.reader
  let (r, c) := ReadString c
  ((r.str, r.err.map UIError.read), u, c)

/-- Source method `UI.Message`; `Sprintf` stands for `fmt.Sprintf` on the
arguments of the call. -/
def UI.Message {α : Type} (Sprintf : GoString → α → GoString) (u : UI) (c : Console)
    (format : GoString) (args : α) : UI × Console :=
  let (u, c) := u.newline c
  (u, Println c [u.paragraph (Sprintf (lit "+ " ++ format) args) 2])

/-- Source method `UI.Display`. -/
def UI.Display (u : UI) (c : Console) (tasks : TaskQueue) (index : Int) : UI × Console :=
  let title := formatInt index ++ lit ". "
  let title := if index < 10 then title ++ lit " " else title
  let title :=
    if index ≤ tasks.LastOpenedIndex then title ++ lit "[open] " else title ++ lit "[todo] "
  let title := title ++ (tasks.At index).Title
  let story := spaces 4 ++ (tasks.At index).Story
  let (u, c) := u.newline c
  let c := Println c [u.paragraph title 4]
  let c := Println c [u.paragraph story 4]
  (u, c)

/-- Source method `UI.Line`. -/
def UI.Line (u : UI) (c : Console) : UI × Console :=
  let (u, c) := u.newline c
  (u, Println c [lit "---"])

/-! ## Sessions -/

/-- A call of one of the public methods of `UI`. -/
inductive Op (α : Type) where
  | QueryYesNo
  | QueryLine
  | Message (format : GoString) (args : α)
  | Display (tasks : TaskQueue) (index : Int)
  | Line

/-- The state after the call `op`. -/
def Op.run {α : Type} (Sprintf : GoString → α → GoString) (op : Op α) (s : UI × Console) :
    UI × Console :=
  match op with
  | .QueryYesNo => (s.1.QueryYesNo s.2).2
  | .QueryLine => (s.1.QueryLine s.2).2
  | .Message format args => s.1.Message Sprintf s.2 format args
  | .Display tasks index => s.1.Display s.2 tasks index
  | .Line => s.1.Line s.2

/-- The state after the calls `ops`, made in order. -/
def runOps {α : Type} (Sprintf : GoString → α → GoString) (ops : List (Op α)) (s : UI × Console) :
    UI × Console :=
  ops.foldl (fun s op => op.run Sprintf s) s

/-- Number of empty lines printed by `fmt.Println()` among the calls `out`. -/
def blankLines (out : List Output) : Nat := out.count (Output.Println [])

/-! ## Library `encoding/json`, as used by `Task.Edit` -/

/-- The digit of `hex` ("0123456789abcdef") at index `d`. -/
def hexDigit (d : Nat) : Rune :=
  if d < 10 then Rune.valid (0x30 + d) else Rune.valid (0x61 + (d - 10))

/-- What the encoder writes for one element of a string, with HTML escaping on
(the default of `json.Encoder`): a short escape for the quote, the backslash,
newline, carriage return and tab; `\u00XX` for the other control characters and
for `<`, `>`, `&`; `\u2028` and `\u2029`; `\ufffd` for an ill-formed byte;
every other character as it is. -/
def escapeRune : Rune → GoString
  | .invalid _ => lit "\\ufffd"
  | .valid r =>
    if r = 0x22 then lit "\\\""
    else if r = 0x5C then lit "\\\\"
    else if r = 0x0A then lit "\\n"
    else if r = 0x0D then lit "\\r"
    else if r = 0x09 then lit "\\t"
    else if r < 0x20 ∨ r = 0x3C ∨ r = 0x3E ∨ r = 0x26 then
      lit "\\u00" ++ [hexDigit (r / 16), hexDigit (r % 16)]
    else if r = 0x2028 then lit "\\u2028"
    else if r = 0x2029 then lit "\\u2029"
    else [Rune.valid r]

/-- The string literal the encoder writes for a string. -/
def jsonString (s : GoString) : GoString :=
  lit "\"" ++ (s.map escapeRune).flatten ++ lit "\""

/-- The text `json.NewEncoder` with `SetIndent("", "  ")` writes for a task. -/
def Encode (t : Task) : GoString :=
  lit "\x7b\n  \"Title\": " ++ jsonString t.Title ++ lit ",\n  \"Story\": " ++ jsonString t.Story
    ++ lit "\n\x7d\n"

/-- A JSON value as the decoder reads it; of a number only its presence is
kept. -/
inductive JSON where
  | null
  | bool (b : Bool)
  | number
  | string (s : GoString)
  | array (items : List JSON)
  | object (members : List (GoString × JSON))

/-- White space between the tokens of a JSON text. -/
def isJSONSpace (x : Rune) : Bool :=
  x = Rune.valid 0x20 || x = Rune.valid 0x09 || x = Rune.valid 0x0A || x = Rune.valid 0x0D

/-- The text after leading JSON white space. -/
def skipSpace (text : GoString) : GoString := text.dropWhile isJSONSpace

/-- The text after the token `c`, white space before it skipped. -/
def expect (c : Rune) (text : GoString) : Option GoString :=
  match skipSpace text with
  | [] => none
  | x :: rest => if x = c then some rest else none

/-- The value of a hexadecimal digit. -/
def hexVal : Rune → Option Nat
  | .invalid _ => none
  | .valid r =>
    if 0x30 ≤ r ∧ r ≤ 0x39 then some (r - 0x30)
    else if 0x61 ≤ r ∧ r ≤ 0x66 then some (r - 0x61 + 10)
    else if 0x41 ≤ r ∧ r ≤ 0x46 then some (r - 0x41 + 10)
    else none

/-- The number written by four hexadecimal digits (`getu4` of the decoder). -/
def hex4 (a b c d : Rune) : Option Nat :=
  match hexVal a, hexVal b, hexVal c, hexVal d with
  | some x, some y, some z, some w => some (((x * 16 + y) * 16 + z) * 16 + w)
  | _, _, _, _ => none

/-- The character of a one-letter escape of a JSON string. -/
def simpleEscape (e : Nat) : Option Nat :=
  if e = 0x22 then some 0x22
  else if e = 0x5C then some 0x5C
  else if e = 0x2F then some 0x2F
  else if e = 0x62 then some 0x08
  else if e = 0x66 then some 0x0C
  else if e = 0x6E then some 0x0A
  else if e = 0x72 then some 0x0D
  else if e = 0x74 then some 0x09
  else none

/-- Library `utf16.IsSurrogate`. -/
def IsSurrogate (r : Nat) : Bool := 0xD800 ≤ r && r < 0xE000

/-- Library `utf16.DecodeRune`: the code point of a surrogate pair, U+FFFD for
anything else. -/
def utf16DecodeRune (r1 r2 : Nat) : Nat :=
  if 0xD800 ≤ r1 ∧ r1 < 0xDC00 ∧ 0xDC00 ≤ r2 ∧ r2 < 0xE000 then
    (r1 - 0xD800) * 0x400 + (r2 - 0xDC00) + 0x10000
  else RuneError

/-- The decoder on the rest of a string literal; `pending` is a surrogate
escape just read and not yet written, for which U+FFFD is written unless the
next escape completes the pair. -/
def parseStringFrom : Option Nat → GoString → Option (GoString × GoString)
  | _, [] => none
  | pending, .invalid _ :: rest =>
    (parseStringFrom none rest).map (fun p =>
      ((if pending.isSome then [Rune.valid RuneError] else [])
        ++ Rune.valid RuneError :: p.1, p.2))
  | pending, .valid r :: rest =>
    if r = 0x22 then some (if pending.isSome then [Rune.valid RuneError] else [], rest)
    else if r = 0x5C then
      match rest with
      | [] => none
      | .invalid _ :: _ => none
      | .valid e :: rest1 =>
        if e = 0x75 then
          match rest1 with
          | h1 :: h2 :: h3 :: h4 :: rest2 =>
            match hex4 h1 h2 h3 h4 with
            | none => none
            | some rr =>
              if pending.isSome ∧ utf16DecodeRune (pending.getD 0) rr ≠ RuneError then
                (parseStringFrom none rest2).map
                  (fun p => (Rune.valid (utf16DecodeRune (pending.getD 0) rr) :: p.1, p.2))
              else if IsSurrogate rr then
                (parseStringFrom (some rr) rest2).map (fun p =>
                  ((if pending.isSome then [Rune.valid RuneError] else []) ++ p.1, p.2))
              else
                (parseStringFrom none rest2).map (fun p =>
                  ((if pending.isSome then [Rune.valid RuneError] else [])
                    ++ Rune.valid rr :: p.1, p.2))
          | _ => none
        else
          match simpleEscape e with
          | some c =>
            (parseStringFrom none rest1).map (fun p =>
              ((if pending.isSome then [Rune.valid RuneError] else [])
                ++ Rune.valid c :: p.1, p.2))
          | none => none
    else if r < 0x20 then none
    else
      (parseStringFrom none rest).map (fun p =>
        ((if pending.isSome then [Rune.valid RuneError] else []) ++ Rune.valid r :: p.1, p.2))

/-- The decoder on a string literal whose opening quote has been read: the
string it stands for and the text after the closing quote; `none` for a literal
that is not well formed (a raw control character, a bad escape, no closing
quote).  An ill-formed byte is read as U+FFFD; so is a surrogate escape that is
not part of a pair. -/
def parseString (text : GoString) : Option (GoString × GoString) :=
  parseStringFrom none text

/-- Whether an element is a decimal digit. -/
def isDigit (x : Rune) : Bool :=
  match x with
  | .valid r => 0x30 ≤ r && r ≤ 0x39
  | .invalid _ => false

/-- The text after the exponent of a number, if there is one. -/
def scanExponent (text : GoString) : Option GoString :=
  match text with
  | .valid e :: rest =>
    if e = 0x65 ∨ e = 0x45 then
      match rest with
      | .valid sg :: d :: rest1 =>
        if sg = 0x2B ∨ sg = 0x2D then
          if isDigit d then some (rest1.dropWhile isDigit) else none
        else if isDigit (Rune.valid sg) then some ((d :: rest1).dropWhile isDigit)
        else none
      | [d] => if isDigit d then some [] else none
      | _ => none
    else some text
  | _ => some text

/-- The text after the fraction and exponent of a number, if there are any. -/
def scanFraction (text : GoString) : Option GoString :=
  match text with
  | .valid p :: rest =>
    if p = 0x2E then
      match rest with
      | d :: rest1 => if isDigit d then scanExponent (rest1.dropWhile isDigit) else none
      | [] => none
    else scanExponent text
  | _ => scanExponent text

/-- The text after a JSON number, `none` if the text does not start with one. -/
def scanNumber (text : GoString) : Option GoString :=
  let digits : GoString → Option GoString := fun t =>
    match t with
    | .valid d :: rest =>
      if d = 0x30 then scanFraction rest
      else if 0x31 ≤ d ∧ d ≤ 0x39 then scanFraction (rest.dropWhile isDigit)
      else none
    | _ => none
  match text with
  | .valid m :: rest => if m = 0x2D then digits rest else digits text
  | _ => none

/-- The decoder on `null`, `true`, `false` and numbers. -/
def parseLiteral (text : GoString) : Option (JSON × GoString) :=
  match text with
  | .valid 0x6E :: .valid 0x75 :: .valid 0x6C :: .valid 0x6C :: rest => some (JSON.null, rest)
  | .valid 0x74 :: .valid 0x72 :: .valid 0x75 :: .valid 0x65 :: rest =>
    some (JSON.bool true, rest)
  | .valid 0x66 :: .valid 0x61 :: .valid 0x6C :: .valid 0x73 :: .valid 0x65 :: rest =>
    some (JSON.bool false, rest)
  | _ => (scanNumber text).map (fun rest => (JSON.number, rest))

/-- The members of an object from its first member on, up to and including the
closing brace; `pv` reads a value, `n` bounds the number of members. -/
def parseMembers (pv : GoString → Option (JSON × GoString)) :
    Nat → GoString → Option (List (GoString × JSON) × GoString)
  | 0, _ => none
  | n + 1, text =>
    match expect (Rune.valid 0x22) text with
    | none => none
    | some rest =>
      match parseString rest with
      | none => none
      | some (key, rest) =>
        match expect (Rune.valid 0x3A) rest with
        | none => none
        | some rest =>
          match pv rest with
          | none => none
          | some (v, rest) =>
            match skipSpace rest with
            | [] => none
            | d :: rest =>
              if d = Rune.valid 0x2C then
                (parseMembers pv n rest).map (fun p => ((key, v) :: p.1, p.2))
              else if d = Rune.valid 0x7D then some ([(key, v)], rest)
              else none

/-- The items of an array from its first item on, up to and including the
closing bracket; `pv` reads a value, `n` bounds the number of items. -/
def parseItems (pv : GoString → Option (JSON × GoString)) :
    Nat → GoString → Option (List JSON × GoString)
  | 0, _ => none
  | n + 1, text =>
    match pv text with
    | none => none
    | some (v, rest) =>
      match skipSpace rest with
      | [] => none
      | d :: rest =>
        if d = Rune.valid 0x2C then (parseItems pv n rest).map (fun p => (v :: p.1, p.2))
        else if d = Rune.valid 0x5D then some ([v], rest)
        else none

/-- The decoder on one JSON value at the start of a text: the value and the
text after it, `none` for a text that does not start with a JSON value; `fuel`
bounds the depth of nesting and the number of members or items of a value, each
of which takes at least one character of the text. -/
def parseValue : Nat → GoString → Option (JSON × GoString)
  | 0, _ => none
  | fuel + 1, text =>
    match skipSpace text with
    | [] => none
    | x :: rest =>
      if x = Rune.valid 0x22 then
        (parseString rest).map (fun p => (JSON.string p.1, p.2))
      else if x = Rune.valid 0x7B then
        match skipSpace rest with
        | [] => none
        | y :: rest1 =>
          if y = Rune.valid 0x7D then some (JSON.object [], rest1)
          else (parseMembers (parseValue fuel) fuel (y :: rest1)).map
            (fun p => (JSON.object p.1, p.2))
      else if x = Rune.valid 0x5B then
        match skipSpace rest with
        | [] => none
        | y :: rest1 =>
          if y = Rune.valid 0x5D then some (JSON.array [], rest1)
          else (parseItems (parseValue fuel) fuel (y :: rest1)).map
            (fun p => (JSON.array p.1, p.2))
      else parseLiteral (x :: rest)

/-- The fields of `Task`. -/
inductive Field where
  | Title
  | Story
  deriving DecidableEq, Repr

/-- Whether an element of a key matches a letter of a field name when case is
ignored: the same letter in either case, or the long s (U+017F) for `s` and the
Kelvin sign (U+212A) for `k`. -/
def foldEq (nameElem keyElem : Rune) : Bool :=
  match nameElem, keyElem with
  | .valid n, .valid k =>
    if k < 0x80 then
      n = k || (((0x41 ≤ n && n ≤ 0x5A) || (0x61 ≤ n && n ≤ 0x7A)) &&
        ((0x41 ≤ k && k ≤ 0x5A) || (0x61 ≤ k && k ≤ 0x7A)) && n % 0x20 = k % 0x20)
    else ((n = 0x73 || n = 0x53) && k = 0x17F) || ((n = 0x6B || n = 0x4B) && k = 0x212A)
  | _, _ => false

/-- The case-insensitive match of a key with a field name. -/
def equalFold : GoString → GoString → Bool
  | [], [] => true
  | n :: name, k :: key => foldEq n k && equalFold name key
  | _, _ => false

/-- The field of `Task` a key of the object is stored in: the decoder goes
through the fields in order, takes a field whose name is the key and stops, and
otherwise keeps the first field whose name matches when case is ignored. -/
def findField (key : GoString) : Option Field :=
  if key = lit "Title" then some Field.Title
  else
    let f := if equalFold (lit "Title") key then some Field.Title else none
    if key = lit "Story" then some Field.Story
    else if f = none ∧ equalFold (lit "Story") key = true then some Field.Story
    else f

/-- An error of `Decode`. -/
inductive DecodeError where
  /-- The text does not start with a JSON value (`SyntaxError`, `io.EOF`). -/
  | malformed
  /-- A value of the wrong type for its place (`UnmarshalTypeError`). -/
  | type
  /-- The file could not be read. -/
  | read
  deriving DecidableEq, Repr

/-- The decoder storing one member of an object into the task: a string goes
into the field of its key, `null` changes nothing, any other value for a field
is a type error, of which the first is kept; a key of no field is passed
over. -/
def storeMember (st : Task × Option DecodeError) (m : GoString × JSON) :
    Task × Option DecodeError :=
  match findField m.1 with
  | none => st
  | some f =>
    match m.2 with
    | JSON.string s =>
      match f with
      | Field.Title => ({ st.1 with Title := s }, st.2)
      | Field.Story => ({ st.1 with Story := s }, st.2)
    | JSON.null => st
    | _ => (st.1, st.2.orElse (fun _ => some DecodeError.type))

/-- The decoder storing a JSON value into a task (`Unmarshal` into `*Task`). -/
def unmarshal (v : JSON) (t : Task) : Task × Option DecodeError :=
  match v with
  | JSON.null => (t, none)
  | JSON.object members => members.foldl storeMember (t, none)
  | _ => (t, some DecodeError.type)

/-- The call `json.NewDecoder(file).Decode(t)` on a file holding `text`: the
task afterwards and the error. -/
def Decode (text : GoString) (t : Task) : Task × Option DecodeError :=
  match parseValue (text.length + 1) text with
  | none => (t, some DecodeError.malformed)
  | some (v, _) => unmarshal v t

/-! ## `Task.Edit` -/

/-- Library `strings.ReplaceAll(s, old, new)` for `old` and `new` of one byte. -/
def ReplaceAll (s : GoString) (old new : Rune) : GoString :=
  s.map (fun x => if x = old then new else x)

/-- An error of the operating system: a file that cannot be made, written,
closed or opened, a child that cannot be started or exits with a status other
than 0. -/
structure OSError where
  code : Nat
  deriving DecidableEq, Repr

/-- A child process: the program and its arguments (`exec.Command`). -/
structure Command where
  name : GoString
  args : List GoString
  deriving DecidableEq, Repr

/-- What `Edit` meets outside the program. `TempFile pattern` is the name of
the file `ioutil.TempFile("", pattern)` makes, or its error; `writeErr` and `closeErr`
are the errors, if any, of writing the encoded task and of closing the file;
`Getenv` is `os.Getenv`; `Run cmd content` is `cmd.Run()` while the temporary
file holds `content`: an error, or the content of the file when the child has
exited with status 0; `openErr` and `readErr` are the errors, if any, of opening and
of reading the file afterwards. -/
structure EditEnv where
  TempFile : GoString → Except OSError GoString
  writeErr : Option OSError
  closeErr : Option OSError
  Getenv : GoString → GoString
  Run : Command → GoString → Except OSError GoString
  openErr : Option OSError
  readErr : Option OSError

/-- The errors `Edit` returns, named after the message each is wrapped in. -/
inductive EditError where
  | failedToOpenTempFile (cause : OSError)
  | failedToEncodeTask (cause : OSError)
  | failedToCloseFile (cause : OSError)
  | failedToExecuteEditor (cause : OSError)
  | failedToOpenFile (cause : OSError)
  | failedToDecodeFile (cause : DecodeError)
  deriving DecidableEq, Repr

/-- What a call of `Edit` leaves: the task, the error returned, and the child
process it ran, if it got that far. -/
structure EditResult where
  task : Task
  err : Option EditError
  cmd : Option Command
  deriving DecidableEq, Repr

/-- Source method `Task.Edit`. -/
def Task.Edit (env : EditEnv) (t : Task) : EditResult :=
  let namePattern := lit "*_" ++ ReplaceAll t.Title SP (Rune.valid 0x5F)
  match env.TempFile namePattern with
  | .error err => ⟨t, some (EditError.failedToOpenTempFile err), none⟩
  | .ok name =>
    match env.writeErr with
    | some err => ⟨t, some (EditError.failedToEncodeTask err), none⟩
    | none =>
      match env.closeErr with
      | some err => ⟨t, some (EditError.failedToCloseFile err), none⟩
      | none =>
        let shell := TrimSpace (env.Getenv (lit "SHELL"))
        let shell := if len shell = 0 then lit "sh" else shell
        let editor := TrimSpace (env.Getenv (lit "EDITOR"))
        let editor := if len editor = 0 then lit "vim" else editor
        let cmd : Command := ⟨shell, [lit "-c", editor ++ lit " " ++ name]⟩
        match env.Run cmd (Encode t) with
        | .error err => ⟨t, some (EditError.failedToExecuteEditor err), some cmd⟩
        | .ok content =>
          match env.openErr with
          | some err => ⟨t, some (EditError.failedToOpenFile err), some cmd⟩
          | none =>
            match env.readErr with
            | some _ => ⟨t, some (EditError.failedToDecodeFile DecodeError.read), some cmd⟩
            | none =>
              let r := Decode content t
              ⟨r.1, r.2.map EditError.failedToDecodeFile, some cmd⟩

/-- An environment in which nothing fails and the editor leaves in the file the
text `content`, whatever it was given. -/
def editorWrites (content : GoString) : EditEnv :=
  { TempFile := fun pattern => .ok (lit "/tmp/" ++ pattern)
    writeErr := none
    closeErr := none
    Getenv := fun _ => []
    Run := fun _ _ => .ok content
    openErr := none
    readErr := none }

/-- An environment in which nothing fails and the editor leaves the file as it
found it. -/
def editorKeeps (getenv : GoString → GoString) : EditEnv :=
  { TempFile := fun pattern => .ok (lit "/tmp/" ++ pattern)
    writeErr := none
    closeErr := none
    Getenv := getenv
    Run := fun _ content => .ok content
    openErr := none
    readErr := none }

/-- A string as it comes back from the decoder: every ill-formed byte has
become U+FFFD. -/
def sanitize (s : GoString) : GoString := s.map (fun x => Rune.valid x.value)

/-- Whether an element is a well-formed character. -/
def Rune.isValid : Rune → Bool
  | .valid _ => true
  | .invalid _ => false

/-- The value of a field of a task. -/
def Field.get : Field → Task → GoString
  | Field.Title, t => t.Title
  | Field.Story, t => t.Story

/-- The value a JSON object gives a field: the string of the last member stored
in the field whose value is a string; `none` if there is no such member. -/
def fieldValue (f : Field) (members : List (GoString × JSON)) : Option GoString :=
  members.foldl (fun acc m =>
    if findField m.1 = some f then
      match m.2 with
      | JSON.string s => some s
      | _ => acc
    else acc) none

/-- The value a file gives a field: the one its JSON object gives it; `none` if
the text is not a JSON object. -/
def fileValue (f : Field) (content : GoString) : Option GoString :=
  match parseValue (content.length + 1) content with
  | some (JSON.object members, _) => fieldValue f members
  | _ => none

/-! ## Properties used in the statements -/

/-- The words `words` written one after the other, the `k`-th separator of
`seps` between the `k`-th word and the next, nothing after the last word. -/
def joinWith : List GoString → List GoString → GoString
  | [], _ => []
  | [word], _ => word
  | word :: rest, [] => word ++ joinWith rest []
  | word :: rest, sep :: seps => word ++ sep ++ joinWith rest seps

/-- The wrap rule in the words of the specification: the separator chosen at a
running count `count` is a newline followed by `indent` spaces if the count
exceeds `width`, a single space otherwise. -/
def separator (width indent count : Int) : GoString :=
  if count > width then LF :: List.replicate indent.toNat SP else [SP]

/-- The running counts in the words of the specification, one for each word:
the count after a word is the count before it plus the length of the word; the
count before the next word is `indent` after a wrap and one more otherwise. -/
def runningCounts (width indent : Int) : Int → List GoString → List Int
  | _, [] => []
  | count, word :: rest =>
    (count + len word) ::
      runningCounts width indent
        (if count + len word > width then indent else count + len word + 1) rest

/-- The loop of `paragraph` with both variables it maintains: `str` and `count`
after the given words have been visited from index `i` on, `n` being
`len(wordList)`. -/
def paragraphLoopState (width indent n : Int) :
    Int → List GoString → GoString → Int → GoString × Int
  | _, [], str, count => (str, count)
  | i, word :: rest, str, count =>
    let str := str ++ word
    let count := count + len word
    if i ≠ n - 1 then
      if count > width then
        paragraphLoopState width indent n (i + 1) rest (str ++ (lit "\n" ++ spaces indent)) indent
      else
        paragraphLoopState width indent n (i + 1) rest (str ++ lit " ") (count + 1)
    else
      paragraphLoopState width indent n (i + 1) rest str count

/-- The lines of a text: its pieces between newlines. -/
def lines (s : GoString) : List GoString := Split s LF

/-- The last line of a text, the one being written. -/
def lastLine (s : GoString) : GoString := (lines s).getLast?.getD []

/-- A line that starts with exactly four spaces followed by a character that is
not a space. -/
def FourSpaceLine (l : GoString) : Prop :=
  ∃ (x : Rune) (rest : GoString), l = SP :: SP :: SP :: SP :: x :: rest ∧ x ≠ SP

/-- No two neighbours both match `\s`. -/
def NoSpaceRun (a b : Rune) : Prop := ¬ (a.isReSpace = true ∧ b.isReSpace = true)

/-- A fragment of the Unicode upper-case table, for evaluating examples:
U+00E9 goes to U+00C9 and every other code point is unchanged. -/
def sampleUpperCase (r : Nat) : Nat := if r = 0xE9 then 0xC9 else r

/-! ## Lemmas on the library functions -/

theorem reSpace_imp_IsSpace {r : Nat} (h : reSpace r = true) : IsSpace r = true := by
  simp only [reSpace, Bool.or_eq_true, beq_iff_eq] at h
  rcases h with (((h | h) | h) | h) | h <;> subst h <;> decide

theorem isReSpace_imp_isSpace {x : Rune} (h : x.isReSpace = true) : x.isSpace = true :=
  reSpace_imp_IsSpace h

theorem ToUpper_eq_nil (u : Nat → Nat) (s : GoString) : ToUpper u s = [] ↔ s = [] := by
  simp [ToUpper]

theorem TrimSpace_head_not_space (s : GoString) (x : Rune)
    (h : (TrimSpace s).head? = some x) : x.isSpace = false := by
  unfold TrimSpace at h
  have hp : List.rdropWhile Rune.isSpace (List.dropWhile Rune.isSpace s)
      <+: List.dropWhile Rune.isSpace s := List.rdropWhile_prefix _ _
  obtain ⟨r, hr⟩ := hp
  cases hd : List.rdropWhile Rune.isSpace (List.dropWhile Rune.isSpace s) with
  | nil => rw [hd] at h; simp at h
  | cons y ys =>
    rw [hd] at h hr
    simp only [List.head?_cons, Option.some.injEq] at h
    subst h
    have hne : List.dropWhile Rune.isSpace s ≠ [] := by rw [← hr]; simp
    have := List.head_dropWhile_not Rune.isSpace s hne
    simpa [← hr] using this

theorem TrimSpace_getLast_not_space (s : GoString) (x : Rune)
    (h : (TrimSpace s).getLast? = some x) : x.isSpace = false := by
  unfold TrimSpace at h
  cases hd : List.rdropWhile Rune.isSpace (List.dropWhile Rune.isSpace s) with
  | nil => rw [hd] at h; simp at h
  | cons y ys =>
    have hne : List.rdropWhile Rune.isSpace (List.dropWhile Rune.isSpace s) ≠ [] := by
      rw [hd]; simp
    have h1 := List.rdropWhile_last_not Rune.isSpace _ hne
    rw [List.getLast?_eq_getLast _ hne] at h
    simp only [Option.some.injEq] at h
    rw [h] at h1
    simpa using h1

theorem TrimSpace_eq_nil_of_all_space (s : GoString) (h : ∀ x ∈ s, x.isSpace = true) :
    TrimSpace s = [] := by
  unfold TrimSpace
  have : List.dropWhile Rune.isSpace s = [] := by
    rw [List.dropWhile_eq_nil_iff]; exact h
  rw [this]; rfl

theorem lit_space : lit " " = [SP] := rfl

theorem replaceSpaceRuns_eq_nil (s : GoString) :
    replaceSpaceRuns [SP] false s = [] ↔ s = [] := by
  cases s with
  | nil => simp [replaceSpaceRuns]
  | cons x rest =>
    by_cases hx : x.isReSpace = true <;> simp [replaceSpaceRuns, hx]

theorem replaceSpaceRuns_head (b : Bool) (s : GoString) (y : Rune)
    (h : s.head? = some y) (hy : y.isReSpace = false) :
    (replaceSpaceRuns [SP] b s).head? = some y := by
  cases s with
  | nil => simp at h
  | cons x rest =>
    simp only [List.head?_cons, Option.some.injEq] at h
    subst h
    simp [replaceSpaceRuns, hy]

theorem replaceSpaceRuns_getLast (s : GoString) (y : Rune) :
    ∀ b : Bool, s.getLast? = some y → y.isReSpace = false →
      (replaceSpaceRuns [SP] b s).getLast? = some y := by
  induction s with
  | nil => intro b h; simp at h
  | cons x rest ih =>
    intro b h hy
    cases rest with
    | nil =>
      simp only [List.getLast?_singleton, Option.some.injEq] at h
      subst h
      simp [replaceSpaceRuns, hy]
    | cons z zs =>
      rw [List.getLast?_cons_cons] at h
      have key : ∀ (pre : GoString) (c : Bool),
          (pre ++ replaceSpaceRuns [SP] c (z :: zs)).getLast? = some y := by
        intro pre c
        have h1 := ih c h hy
        have hne : replaceSpaceRuns [SP] c (z :: zs) ≠ [] := by
          intro h0; rw [h0] at h1; simp at h1
        rw [List.getLast?_append_of_ne_nil _ hne]; exact h1
      by_cases hx : x.isReSpace = true
      · cases b
        · have := key [SP] true
          simpa [replaceSpaceRuns, hx] using this
        · have := key [] true
          simpa [replaceSpaceRuns, hx] using this
      · have := key [x] false
        simpa [replaceSpaceRuns, hx] using this

theorem replaceSpaceRuns_chain (s : GoString) :
    ∀ b : Bool, List.Chain' NoSpaceRun (replaceSpaceRuns [SP] b s) ∧
      (b = true → ∀ x, (replaceSpaceRuns [SP] b s).head? = some x → x.isReSpace = false) := by
  induction s with
  | nil => intro b; simp [replaceSpaceRuns]
  | cons x rest ih =>
    intro b
    by_cases hx : x.isReSpace = true
    · cases b
      · obtain ⟨hc, hh⟩ := ih true
        refine ⟨?_, by simp⟩
        simp only [replaceSpaceRuns, hx, if_true, Bool.false_eq_true, if_false,
          List.singleton_append]
        rw [List.chain'_cons']
        refine ⟨?_, hc⟩
        intro y hy
        have := hh rfl y hy
        simp [NoSpaceRun, this]
      · simpa [replaceSpaceRuns, hx] using ih true
    · obtain ⟨hc, _⟩ := ih false
      have hx' : x.isReSpace = false := by simpa using hx
      have he : replaceSpaceRuns [SP] b (x :: rest) = x :: replaceSpaceRuns [SP] false rest := by
        simp [replaceSpaceRuns, hx']
      rw [he]
      refine ⟨?_, ?_⟩
      · rw [List.chain'_cons']
        refine ⟨?_, hc⟩
        intro y _
        simp [NoSpaceRun, hx']
      · intro _ y hy
        simp only [List.head?_cons, Option.some.injEq] at hy
        rw [← hy]; exact hx'

theorem replaceSpaceRuns_filter (s : GoString) :
    ∀ b : Bool, (replaceSpaceRuns [SP] b s).filter (fun x => !x.isSpace)
      = s.filter (fun x => !x.isSpace) := by
  induction s with
  | nil => intro b; simp [replaceSpaceRuns]
  | cons x rest ih =>
    intro b
    have hSP : SP.isSpace = true := by decide
    by_cases hx : x.isReSpace = true
    · have hs := isReSpace_imp_isSpace hx
      cases b <;> simp [replaceSpaceRuns, hx, hs, hSP, ih]
    · by_cases hs : x.isSpace = true <;> simp [replaceSpaceRuns, hx, hs, ih]

theorem TrimSpace_filter (s : GoString) :
    (TrimSpace s).filter (fun x => !x.isSpace) = s.filter (fun x => !x.isSpace) := by
  have hd : ∀ l : GoString, (l.dropWhile Rune.isSpace).filter (fun x => !x.isSpace)
      = l.filter (fun x => !x.isSpace) := by
    intro l
    induction l with
    | nil => simp
    | cons x rest ih =>
      by_cases hs : x.isSpace = true <;> simp [List.dropWhile, hs, ih]
  unfold TrimSpace
  rw [List.rdropWhile, List.filter_reverse, hd, ← List.filter_reverse, List.reverse_reverse, hd]

theorem trim_eq_nil (s : GoString) : trim s = [] ↔ TrimSpace s = [] := by
  unfold trim ReplaceAllString
  rw [lit_space]
  exact replaceSpaceRuns_eq_nil _

theorem trim_head_not_space (s : GoString) (x : Rune) (h : (trim s).head? = some x) :
    x.isSpace = false := by
  unfold trim ReplaceAllString at h
  rw [lit_space] at h
  cases hd : TrimSpace s with
  | nil => rw [hd] at h; simp [replaceSpaceRuns] at h
  | cons y ys =>
    have hy : y.isSpace = false := TrimSpace_head_not_space s y (by rw [hd]; rfl)
    have hy' : y.isReSpace = false := by
      cases hr : y.isReSpace with
      | false => rfl
      | true => rw [isReSpace_imp_isSpace hr] at hy; cases hy
    have := replaceSpaceRuns_head false (TrimSpace s) y (by rw [hd]; rfl) hy'
    rw [this] at h
    simp only [Option.some.injEq] at h
    rw [← h]; exact hy

theorem trim_getLast_not_space (s : GoString) (x : Rune) (h : (trim s).getLast? = some x) :
    x.isSpace = false := by
  unfold trim ReplaceAllString at h
  rw [lit_space] at h
  cases hd : (TrimSpace s).getLast? with
  | none =>
    rw [List.getLast?_eq_none_iff] at hd
    rw [hd] at h; simp [replaceSpaceRuns] at h
  | some y =>
    have hy : y.isSpace = false := TrimSpace_getLast_not_space s y hd
    have hy' : y.isReSpace = false := by
      cases hr : y.isReSpace with
      | false => rfl
      | true => rw [isReSpace_imp_isSpace hr] at hy; cases hy
    have := replaceSpaceRuns_getLast (TrimSpace s) y false hd hy'
    rw [this] at h
    simp only [Option.some.injEq] at h
    rw [← h]; exact hy

theorem trim_chain (s : GoString) : List.Chain' NoSpaceRun (trim s) := by
  unfold trim ReplaceAllString
  rw [lit_space]
  exact (replaceSpaceRuns_chain _ false).1

theorem trim_filter (s : GoString) :
    (trim s).filter (fun x => !x.isSpace) = s.filter (fun x => !x.isSpace) := by
  unfold trim ReplaceAllString
  rw [lit_space, replaceSpaceRuns_filter, TrimSpace_filter]

theorem no_double_space_of_chain (l : GoString) (h : List.Chain' NoSpaceRun l) :
    ¬ [SP, SP] <:+: l := by
  intro hi
  have := h.infix hi
  rw [List.chain'_pair] at this
  exact this ⟨by decide, by decide⟩

/-- What `Normalize` returns when it succeeds. -/
theorem Normalize_ok (u : Nat → Nat) (t t' : Task) (h : t.Normalize u = (t', none)) :
    trim t.Title ≠ [] ∧ trim t.Story ≠ [] ∧
      t'.Title = ToUpper u (trim t.Title) ∧ t'.Story = trim t.Story := by
  unfold Task.Normalize at h
  simp only [ToUpper_eq_nil] at h
  by_cases h1 : trim t.Title = []
  · simp [h1] at h
  · by_cases h2 : trim t.Story = []
    · simp [h1, h2] at h
    · simp only [h1, h2, if_false, Prod.mk.injEq, and_true] at h
      subst h
      exact ⟨h1, h2, rfl, rfl⟩

/-- A case table that never turns a code point into white space keeps
`unicode.ToUpper` from doing so. -/
theorem unicodeToUpper_space (u : Nat → Nat)
    (hU : ∀ r, 0x7F < r → IsSpace (u r) = true → u r = r) (r : Nat)
    (h : IsSpace (unicodeToUpper u r) = true) : unicodeToUpper u r = r := by
  unfold unicodeToUpper at h ⊢
  by_cases h1 : r ≤ 0x7F
  · simp only [h1, if_true] at h ⊢
    by_cases h2 : 0x61 ≤ r ∧ r ≤ 0x7A
    · exfalso
      simp only [h2, and_self, if_true] at h
      have h3 : r - (0x61 - 0x41) ≤ 0xFF := by omega
      simp only [IsSpace, h3, if_true, Bool.or_eq_true, beq_iff_eq] at h
      omega
    · simp [h2]
  · simp only [h1, if_false] at h ⊢
    exact hU r (by omega) h

/-! ## `Normalize` -/

/-- C1: the outcome of `Normalize` is decided by the cleaned fields, title
first: it returns the empty-title error exactly when the cleaned title is
empty, the empty-story error exactly when the cleaned title is not empty and the
cleaned story is, and no error otherwise; a task whose title and story are both
only white space gets the empty-title error. -/
theorem Normalize_outcome (upperCase : Nat → Nat) (t : Task) :
    ((t.Normalize upperCase).2 = some NormalizeError.titleIsEmpty ↔ trim t.Title = []) ∧
    ((t.Normalize upperCase).2 = some NormalizeError.storyIsEmpty ↔
      (trim t.Title ≠ [] ∧ trim t.Story = [])) ∧
    ((t.Normalize upperCase).2 = none ↔ (trim t.Title ≠ [] ∧ trim t.Story ≠ [])) ∧
    ((∀ x ∈ t.Title, x.isSpace = true) → (∀ x ∈ t.Story, x.isSpace = true) →
      (t.Normalize upperCase).2 = some NormalizeError.titleIsEmpty) := by
  have key : ((t.Normalize upperCase).2 = some NormalizeError.titleIsEmpty ↔ trim t.Title = []) ∧
      ((t.Normalize upperCase).2 = some NormalizeError.storyIsEmpty ↔
        (trim t.Title ≠ [] ∧ trim t.Story = [])) ∧
      ((t.Normalize upperCase).2 = none ↔ (trim t.Title ≠ [] ∧ trim t.Story ≠ [])) := by
    unfold Task.Normalize
    simp only [ToUpper_eq_nil]
    by_cases h1 : trim t.Title = []
    · simp [h1]
    · by_cases h2 : trim t.Story = [] <;> simp [h1, h2]
  refine ⟨key.1, key.2.1, key.2.2, ?_⟩
  intro hT _
  rw [key.1, trim_eq_nil]
  exact TrimSpace_eq_nil_of_all_space _ hT

/-- Witness of C1 at a task whose title and story are three spaces each. -/
theorem Normalize_outcome_witness :
    (∀ x ∈ lit "   ", x.isSpace = true) ∧
    (Task.Normalize id ⟨lit "   ", lit "   "⟩).2 = some NormalizeError.titleIsEmpty :=
  ⟨by decide,
   (Normalize_outcome id ⟨lit "   ", lit "   "⟩).2.2.2 (by decide) (by decide)⟩

/-- C2: when `Normalize` returns an error, the task it leaves behind is the task
it was given: neither `Title` nor `Story` has changed. -/
theorem Normalize_atomic (upperCase : Nat → Nat) (t : Task) (e : NormalizeError)
    (h : (t.Normalize upperCase).2 = some e) :
    (t.Normalize upperCase).1 = t ∧
    (t.Normalize upperCase).1.Title = t.Title ∧ (t.Normalize upperCase).1.Story = t.Story := by
  have : (t.Normalize upperCase).1 = t := by
    unfold Task.Normalize at h ⊢
    by_cases h1 : ToUpper upperCase (trim t.Title) = []
    · simp [h1]
    · by_cases h2 : trim t.Story = []
      · simp [h1, h2]
      · simp [h1, h2] at h
  rw [this]; exact ⟨rfl, rfl, rfl⟩

/-- Witness of C2: a valid title with a story of spaces only; the error is the
empty-story one and the title is neither trimmed nor upper-cased. -/
theorem Normalize_atomic_witness :
    (Task.Normalize id ⟨lit " ok ", lit "   "⟩).2 = some NormalizeError.storyIsEmpty ∧
    (Task.Normalize id ⟨lit " ok ", lit "   "⟩).1.Title = lit " ok " :=
  ⟨by decide,
   (Normalize_atomic id ⟨lit " ok ", lit "   "⟩ NormalizeError.storyIsEmpty (by decide)).2.1⟩

/-- C3, evaluated: the vertical tab and the no-break space are white space for
the trim at both ends, yet `Normalize` succeeds on a title with a vertical tab
inside and a story with two adjacent no-break spaces inside and leaves both
where they were. -/
theorem Normalize_keeps_vertical_tab :
    TrimSpace (lit "\x0ba\u00a0") = lit "a" ∧
    Rune.isSpace (Rune.valid 0x0B) = true ∧ Rune.isSpace (Rune.valid 0xA0) = true ∧
    Task.Normalize id ⟨lit "a\x0bb", lit "x\u00a0\u00a0y"⟩
      = (⟨lit "A\x0bB", lit "x\u00a0\u00a0y"⟩, none) := by
  decide

/-- C4: after a successful `Normalize`, `Title` and `Story` are not empty, do
not start or end with a white-space character and do not contain two adjacent
space characters; for the title this uses that the case table never turns a
code point into white space. -/
theorem Normalize_clean (upperCase : Nat → Nat) (t t' : Task)
    (h : t.Normalize upperCase = (t', none)) :
    (t'.Story ≠ [] ∧
      (∀ x, t'.Story.head? = some x → x.isSpace = false) ∧
      (∀ x, t'.Story.getLast? = some x → x.isSpace = false) ∧
      ¬ [SP, SP] <:+: t'.Story) ∧
    t'.Title ≠ [] ∧
    ((∀ r, 0x7F < r → IsSpace (upperCase r) = true → upperCase r = r) →
      (∀ x, t'.Title.head? = some x → x.isSpace = false) ∧
      (∀ x, t'.Title.getLast? = some x → x.isSpace = false) ∧
      ¬ [SP, SP] <:+: t'.Title) := by
  obtain ⟨h1, h2, hT, hS⟩ := Normalize_ok upperCase t t' h
  refine ⟨⟨?_, ?_, ?_, ?_⟩, ?_, ?_⟩
  · rw [hS]; exact h2
  · intro x hx; rw [hS] at hx; exact trim_head_not_space _ x hx
  · intro x hx; rw [hS] at hx; exact trim_getLast_not_space _ x hx
  · rw [hS]; exact no_double_space_of_chain _ (trim_chain _)
  · rw [hT, Ne, ToUpper_eq_nil]; exact h1
  · intro hU
    have up : ∀ y : Rune, (Rune.valid (unicodeToUpper upperCase y.value)).isSpace = true →
        y.isSpace = true ∧ unicodeToUpper upperCase y.value = y.value := by
      intro y hy
      have := unicodeToUpper_space upperCase hU y.value hy
      refine ⟨?_, this⟩
      have hy' : IsSpace (unicodeToUpper upperCase y.value) = true := hy
      rw [this] at hy'
      exact hy'
    have up' : ∀ y : Rune, y.isSpace = false →
        (Rune.valid (unicodeToUpper upperCase y.value)).isSpace = false := by
      intro y hy
      cases hs : (Rune.valid (unicodeToUpper upperCase y.value)).isSpace with
      | false => rfl
      | true => rw [(up y hs).1] at hy; cases hy
    refine ⟨?_, ?_, ?_⟩
    · intro x hx
      rw [hT, ToUpper, List.head?_map] at hx
      cases hd : (trim t.Title).head? with
      | none => rw [hd] at hx; simp at hx
      | some y =>
        rw [hd] at hx
        simp only [Option.map_some', Option.some.injEq] at hx
        rw [← hx]
        exact up' y (trim_head_not_space _ y hd)
    · intro x hx
      rw [hT, ToUpper, List.getLast?_map] at hx
      cases hd : (trim t.Title).getLast? with
      | none => rw [hd] at hx; simp at hx
      | some y =>
        rw [hd] at hx
        simp only [Option.map_some', Option.some.injEq] at hx
        rw [← hx]
        exact up' y (trim_getLast_not_space _ y hd)
    · rw [hT, ToUpper]
      apply no_double_space_of_chain
      rw [List.chain'_map]
      refine (trim_chain t.Title).imp ?_
      intro a b hab hc
      apply hab
      have sp : ∀ y : Rune, (Rune.valid (unicodeToUpper upperCase y.value)).isReSpace = true →
          y.isReSpace = true := by
        intro y hy
        have h3 := (up y (isReSpace_imp_isSpace hy)).2
        have hy' : reSpace (unicodeToUpper upperCase y.value) = true := hy
        rw [h3] at hy'
        exact hy'
      exact ⟨sp a hc.1, sp b hc.2⟩

theorem sampleUpperCase_space (r : Nat) (_ : 0x7F < r)
    (h : IsSpace (sampleUpperCase r) = true) : sampleUpperCase r = r := by
  unfold sampleUpperCase at h ⊢
  by_cases hr : r = 0xE9
  · rw [if_pos hr] at h; exact absurd h (by decide)
  · rw [if_neg hr]

theorem sampleUpperCase_idem (r : Nat) :
    unicodeToUpper sampleUpperCase (unicodeToUpper sampleUpperCase r)
      = unicodeToUpper sampleUpperCase r := by
  unfold unicodeToUpper sampleUpperCase
  split_ifs <;> omega

/-- Witness of C4, with a title that holds a letter above U+007F. -/
theorem Normalize_clean_witness :
    Task.Normalize sampleUpperCase ⟨lit " h\u00e9llo  world ", lit "\ta \n b "⟩
      = (⟨lit "H\u00c9LLO WORLD", lit "a b"⟩, none) ∧
    ¬ [SP, SP] <:+: lit "H\u00c9LLO WORLD" :=
  ⟨by decide,
   ((Normalize_clean sampleUpperCase ⟨lit " h\u00e9llo  world ", lit "\ta \n b "⟩
      ⟨lit "H\u00c9LLO WORLD", lit "a b"⟩ (by decide)).2.2 sampleUpperCase_space).2.2⟩

/-- C5: after a successful `Normalize`, `Title` is the upper-cased cleaned
original title, so (the case mapping being idempotent) no element of it is
changed by upper-casing again, and `Story` is the cleaned original story, whose
elements other than white space are those of the original story, unchanged and
in the same order. -/
theorem Normalize_case (upperCase : Nat → Nat) (t t' : Task)
    (h : t.Normalize upperCase = (t', none)) :
    t'.Title = ToUpper upperCase (trim t.Title) ∧
    ((∀ r, unicodeToUpper upperCase (unicodeToUpper upperCase r) = unicodeToUpper upperCase r) →
      (∀ x ∈ t'.Title, Rune.valid (unicodeToUpper upperCase x.value) = x) ∧
      ToUpper upperCase t'.Title = t'.Title) ∧
    t'.Story = trim t.Story ∧
    t'.Story.filter (fun x => !x.isSpace) = t.Story.filter (fun x => !x.isSpace) := by
  obtain ⟨_, _, hT, hS⟩ := Normalize_ok upperCase t t' h
  refine ⟨hT, ?_, hS, ?_⟩
  · intro hI
    have hx : ∀ x ∈ t'.Title, Rune.valid (unicodeToUpper upperCase x.value) = x := by
      intro x hx
      rw [hT, ToUpper, List.mem_map] at hx
      obtain ⟨y, _, rfl⟩ := hx
      simp only [Rune.value]
      rw [hI]
    refine ⟨hx, ?_⟩
    unfold ToUpper
    conv_rhs => rw [← List.map_id t'.Title]
    exact List.map_congr_left (fun x hm => by simpa using hx x hm)
  · rw [hS]; exact trim_filter _

/-- Witness of C5: the title is upper-cased, the story keeps its mixed case. -/
theorem Normalize_case_witness :
    Task.Normalize sampleUpperCase ⟨lit " h\u00e9llo  world ", lit "\tMixed \n CaSe "⟩
      = (⟨lit "H\u00c9LLO WORLD", lit "Mixed CaSe"⟩, none) ∧
    ToUpper sampleUpperCase (lit "H\u00c9LLO WORLD") = lit "H\u00c9LLO WORLD" :=
  ⟨by decide,
   ((Normalize_case sampleUpperCase ⟨lit " h\u00e9llo  world ", lit "\tMixed \n CaSe "⟩
      ⟨lit "H\u00c9LLO WORLD", lit "Mixed CaSe"⟩ (by decide)).2.1 sampleUpperCase_idem).2⟩

/-! ## The blank line between interactions -/

theorem blankLines_append (a b : List Output) :
    blankLines (a ++ b) = blankLines a + blankLines b := by
  simp [blankLines, List.count_append]

theorem QueryYesNoLoop_stdout (stdin : List ReadResult) :
    ∀ out : List Output, ∃ body, blankLines body = 0 ∧
      (QueryYesNoLoop stdin out).2.stdout = out ++ body := by
  induction stdin with
  | nil =>
    intro out
    exact ⟨[Output.Print (lit "Enter y|n: ")], by decide, rfl⟩
  | cons r rest ih =>
    intro out
    unfold QueryYesNoLoop
    cases hr : r.err with
    | some e => exact ⟨[Output.Print (lit "Enter y|n: ")], by decide, by simp⟩
    | none =>
      simp only
      by_cases hy : TrimSpace r.str = lit "y"
      · rw [if_pos hy]
        exact ⟨[Output.Print (lit "Enter y|n: ")], by decide, rfl⟩
      · rw [if_neg hy]
        by_cases hn : TrimSpace r.str = lit "n"
        · rw [if_pos hn]
          exact ⟨[Output.Print (lit "Enter y|n: ")], by decide, rfl⟩
        · rw [if_neg hn]
          obtain ⟨body, hb, he⟩ := ih (out ++ [Output.Print (lit "Enter y|n: ")])
          refine ⟨Output.Print (lit "Enter y|n: ") :: body, ?_, ?_⟩
          · rw [← hb]; simp [blankLines]
          · rw [he]; simp

theorem newline_spec (u : UI) (c : Console) :
    (u.newline c).1 = { u with nl := true } ∧
    (u.newline c).2.stdin = c.stdin ∧
    (u.newline c).2.stdout = c.stdout ++ (if u.nl = true then [Output.Println []] else []) := by
  unfold UI.newline
  by_cases h : u.nl = true <;> simp [h, Println]

/-- Every public method prints the separating empty line exactly when the flag
is set, prints nothing else that is an empty `Println`, and leaves the flag
set. -/
theorem Op_run_protocol {α : Type} (Sprintf : GoString → α → GoString) (op : Op α)
    (u : UI) (c : Console) :
    ∃ body, blankLines body = 0 ∧
      (op.run Sprintf (u, c)).2.stdout
        = c.stdout ++ (if u.nl = true then [Output.Println []] else []) ++ body ∧
      (op.run Sprintf (u, c)).1.nl = true := by
  obtain ⟨h1, h2, h3⟩ := newline_spec u c
  cases op with
  | QueryYesNo =>
    obtain ⟨body, hb, he⟩ := QueryYesNoLoop_stdout (u.newline c).2.stdin (u.newline c).2.stdout
    refine ⟨body, hb, ?_, ?_⟩
    · simp only [Op.run, UI.QueryYesNo]
      rw [he, h3]
    · simp only [Op.run, UI.QueryYesNo, UI.reader]
      rw [h1]; split <;> rfl
  | QueryLine =>
    refine ⟨[], rfl, ?_, ?_⟩
    · simp only [Op.run, UI.QueryLine, ReadString, List.append_nil]
      rw [← h3]
      cases (u.newline c).2.stdin <;> rfl
    · simp only [Op.run, UI.QueryLine, UI.reader]
      rw [h1]; split <;> rfl
  | Message format args =>
    refine ⟨[Output.Println [(u.newline c).1.paragraph (Sprintf (lit "+ " ++ format) args) 2]],
      by simp [blankLines], ?_, ?_⟩
    · simp only [Op.run, UI.Message, Println]
      rw [h3]
    · simp only [Op.run, UI.Message]
      rw [h1]
  | Display tasks index =>
    refine ⟨[Output.Println [(u.newline c).1.paragraph
        ((if index ≤ tasks.LastOpenedIndex then
            (if index < 10 then formatInt index ++ lit ". " ++ lit " "
              else formatInt index ++ lit ". ") ++ lit "[open] "
          else (if index < 10 then formatInt index ++ lit ". " ++ lit " "
              else formatInt index ++ lit ". ") ++ lit "[todo] ") ++ (tasks.At index).Title) 4],
      Output.Println [(u.newline c).1.paragraph (spaces 4 ++ (tasks.At index).Story) 4]],
      by simp [blankLines], ?_, ?_⟩
    · simp only [Op.run, UI.Display, Println]
      rw [h3]
      simp
    · simp only [Op.run, UI.Display]
      rw [h1]
  | Line =>
    refine ⟨[Output.Println [lit "---"]], by decide, ?_, ?_⟩
    · simp only [Op.run, UI.Line, Println]
      rw [h3]
    · simp only [Op.run, UI.Line]
      rw [h1]

theorem runOps_snoc {α : Type} (Sprintf : GoString → α → GoString) (ops : List (Op α))
    (op : Op α) (s : UI × Console) :
    runOps Sprintf (ops ++ [op]) s = op.run Sprintf (runOps Sprintf ops s) := by
  simp [runOps, List.foldl_append]

theorem runOps_nl {α : Type} (Sprintf : GoString → α → GoString) (ops : List (Op α))
    (s : UI × Console) (h : ops ≠ []) : (runOps Sprintf ops s).1.nl = true := by
  induction ops using List.reverseRecOn with
  | nil => exact absurd rfl h
  | append_singleton l op _ =>
    rw [runOps_snoc]
    obtain ⟨_, _, _, hn⟩ := Op_run_protocol Sprintf op (runOps Sprintf l s).1 (runOps Sprintf l s).2
    exact hn

theorem runOps_blankLines {α : Type} (Sprintf : GoString → α → GoString) (ops : List (Op α)) :
    ∀ s : UI × Console, blankLines (runOps Sprintf ops s).2.stdout
      = blankLines s.2.stdout + (if s.1.nl = true then ops.length else ops.length - 1) := by
  induction ops with
  | nil => intro s; simp [runOps]
  | cons op rest ih =>
    intro s
    obtain ⟨body, hb, he, hn⟩ := Op_run_protocol Sprintf op s.1 s.2
    have : runOps Sprintf (op :: rest) s = runOps Sprintf rest (op.run Sprintf s) := rfl
    have e1 := ih (op.run Sprintf s)
    rw [if_pos hn, he, blankLines_append, blankLines_append, hb] at e1
    rw [this, e1]
    by_cases h : s.1.nl = true
    · rw [if_pos h, if_pos h]
      have : blankLines [Output.Println []] = 1 := by decide
      rw [this, List.length_cons]; omega
    · rw [if_neg h, if_neg h]
      have : blankLines ([] : List Output) = 0 := by decide
      rw [this, List.length_cons]; omega

/-- C6: from a fresh `UI`, in any non-empty sequence of public calls the flag is
unset before the first call and set after every call; the first call prints no
separating empty line and every later call prints exactly one, before anything
else it prints; so `n` calls print `n - 1` separating empty lines. -/
theorem blank_line_protocol {α : Type} (Sprintf : GoString → α → GoString) (width : Int)
    (c : Console) (op : Op α) (ops : List (Op α)) :
    (New width).nl = false ∧
    (∀ k, k < (op :: ops).length →
      (runOps Sprintf ((op :: ops).take (k + 1)) (New width, c)).1.nl = true ∧
      ∃ body, blankLines body = 0 ∧
        (runOps Sprintf ((op :: ops).take (k + 1)) (New width, c)).2.stdout
          = (runOps Sprintf ((op :: ops).take k) (New width, c)).2.stdout
            ++ (if k = 0 then [] else [Output.Println []]) ++ body) ∧
    blankLines (runOps Sprintf (op :: ops) (New width, c)).2.stdout
      = blankLines c.stdout + ops.length := by
  refine ⟨rfl, ?_, ?_⟩
  · intro k hk
    have ht : (op :: ops).take (k + 1) = (op :: ops).take k ++ [(op :: ops)[k]] := by
      rw [List.take_succ, List.getElem?_eq_getElem hk]; rfl
    rw [ht, runOps_snoc]
    obtain ⟨body, hb, he, hn⟩ := Op_run_protocol Sprintf (op :: ops)[k]
      (runOps Sprintf ((op :: ops).take k) (New width, c)).1
      (runOps Sprintf ((op :: ops).take k) (New width, c)).2
    refine ⟨hn, body, hb, ?_⟩
    rw [he]
    cases k with
    | zero => rfl
    | succ m =>
      have : (runOps Sprintf ((op :: ops).take (m + 1)) (New width, c)).1.nl = true :=
        runOps_nl Sprintf _ _ (by simp)
      rw [if_pos this, if_neg (Nat.succ_ne_zero m)]
  · have := runOps_blankLines Sprintf (op :: ops) (New width, c)
    rw [this]
    simp [New]

/-- Witness of C6: `Message`, `Line`, `Display` print two separating empty
lines, one before the output of `Line` and one before that of `Display`. -/
theorem blank_line_protocol_witness :
    (1 < 3 ∧
      (runOps (fun f (_ : Unit) => f)
        [Op.Message (lit "hi") (), Op.Line] (New 80, ⟨[], []⟩)).1.nl = true) ∧
    blankLines (runOps (fun f (_ : Unit) => f)
      [Op.Message (lit "hi") (), Op.Line, Op.Display ⟨fun _ => ⟨lit "T", lit "s"⟩, 5⟩ 3]
      (New 80, ⟨[], []⟩)).2.stdout = 2 :=
  ⟨⟨by decide,
    ((blank_line_protocol (fun f (_ : Unit) => f) 80 ⟨[], []⟩ (Op.Message (lit "hi") ())
      [Op.Line, Op.Display ⟨fun _ => ⟨lit "T", lit "s"⟩, 5⟩ 3]).2.1 1 (by decide)).1⟩,
   (blank_line_protocol (fun f (_ : Unit) => f) 80 ⟨[], []⟩ (Op.Message (lit "hi") ())
      [Op.Line, Op.Display ⟨fun _ => ⟨lit "T", lit "s"⟩, 5⟩ 3]).2.2⟩

/-! ## `paragraph` -/

theorem lit_newline : lit "\n" = [LF] := rfl

theorem spacesLoop_eq (n : Nat) : ∀ str : GoString,
    spacesLoop n str = str ++ List.replicate n SP := by
  induction n with
  | zero => intro str; simp [spacesLoop]
  | succ m ih =>
    intro str
    rw [spacesLoop, ih, lit_space, List.append_assoc, List.singleton_append,
      ← List.replicate_succ]

theorem spaces_eq (count : Int) : spaces count = List.replicate count.toNat SP := by
  rw [spaces, spacesLoop_eq, List.nil_append]

theorem Split_ne_nil (s : GoString) (sep : Rune) : Split s sep ≠ [] := by
  cases s with
  | nil => simp [Split]
  | cons x rest =>
    unfold Split
    split
    · simp
    · split <;> simp

theorem runningCounts_length (width indent : Int) (words : List GoString) :
    ∀ count, (runningCounts width indent count words).length = words.length := by
  induction words with
  | nil => intro count; rfl
  | cons w rest ih => intro count; simp [runningCounts, ih]

/-- The loop of `paragraph`, started anywhere, writes the remaining words with
the separators of the wrap rule between them. -/
theorem paragraphLoop_eq (width indent n : Int) (rest : List GoString) :
    ∀ (i : Int) (str : GoString) (count : Int), i + rest.length = n →
      paragraphLoop width indent n i rest str count
        = str ++ joinWith rest
            ((runningCounts width indent count rest).dropLast.map (separator width indent)) := by
  induction rest with
  | nil => intro i str count _; simp [paragraphLoop, joinWith]
  | cons word rest ih =>
    intro i str count hn
    cases rest with
    | nil =>
      have hi : i = n - 1 := by simp at hn; omega
      simp [paragraphLoop, hi, joinWith]
    | cons next more =>
      have hi : i ≠ n - 1 := by
        simp only [List.length_cons, Nat.cast_add, Nat.cast_one] at hn; omega
      have hn' : (i + 1) + ((next :: more).length : Int) = n := by
        simp only [List.length_cons, Nat.cast_add, Nat.cast_one] at hn ⊢; omega
      have hc : (runningCounts width indent count (word :: next :: more)).dropLast
          = (count + len word) ::
            (runningCounts width indent
              (if count + len word > width then indent else count + len word + 1)
              (next :: more)).dropLast := by
        rw [runningCounts]
        cases hr : runningCounts width indent
            (if count + len word > width then indent else count + len word + 1)
            (next :: more) with
        | nil =>
          have := runningCounts_length width indent (next :: more)
            (if count + len word > width then indent else count + len word + 1)
          rw [hr] at this; simp at this
        | cons a l => rfl
      rw [hc, List.map_cons]
      unfold paragraphLoop
      simp only [ne_eq, hi, not_false_eq_true, if_true]
      by_cases hw : count + len word > width
      · simp only [hw, if_true]
        rw [ih (i + 1) _ indent hn']
        simp [joinWith, separator, hw, lit_newline, spaces_eq]
      · simp only [hw, if_false]
        rw [ih (i + 1) _ (count + len word + 1) hn']
        simp [joinWith, separator, hw, lit_space]

theorem paragraph_eq (u : UI) (text : GoString) (indent : Int) :
    u.paragraph text indent = joinWith (Split text SP)
      ((runningCounts u.width indent 0 (Split text SP)).dropLast.map
        (separator u.width indent)) := by
  unfold UI.paragraph
  simp only
  rw [paragraphLoop_eq u.width indent _ (Split text SP) 0 [] 0 (by simp)]
  simp

theorem Split_of_not_mem (a : GoString) (sep : Rune) (h : sep ∉ a) : Split a sep = [a] := by
  induction a with
  | nil => rfl
  | cons x rest ih =>
    have hx : ¬ x = sep := fun e => h (by simp [e])
    have hr : sep ∉ rest := fun e => h (List.mem_cons_of_mem _ e)
    simp [Split, hx, ih hr]

theorem Split_append_sep (a b : GoString) (sep : Rune) (h : sep ∉ a) :
    Split (a ++ sep :: b) sep = a :: Split b sep := by
  induction a with
  | nil => simp [Split]
  | cons x rest ih =>
    have hx : ¬ x = sep := fun e => h (by simp [e])
    have hr : sep ∉ rest := fun e => h (List.mem_cons_of_mem _ e)
    simp [Split, hx, ih hr]

theorem Split_not_mem (s : GoString) (sep : Rune) : ∀ w ∈ Split s sep, sep ∉ w := by
  induction s with
  | nil => simp [Split]
  | cons x rest ih =>
    by_cases hx : x = sep
    · intro w hw
      simp only [Split, hx, if_true, List.mem_cons] at hw
      rcases hw with rfl | hw
      · simp
      · exact ih w hw
    · intro w hw
      cases hs : Split rest sep with
      | nil => exact absurd hs (Split_ne_nil rest sep)
      | cons v vs =>
        rw [hs] at ih
        simp only [Split, hx, if_false, hs, List.mem_cons] at hw
        rcases hw with rfl | hw
        · intro hm
          rcases List.mem_cons.1 hm with e | e
          · exact hx e.symm
          · exact ih v (by simp) e
        · exact ih w (by simp [hw])

theorem joinWith_cons_cons (x : Rune) (w : GoString) (ws seps : List GoString) :
    joinWith ((x :: w) :: ws) seps = x :: joinWith (w :: ws) seps := by
  cases ws with
  | nil => simp [joinWith]
  | cons v vs => cases seps <;> simp [joinWith]

/-- Writing the pieces of a split back with the separator between them gives
the string that was split. -/
theorem joinWith_Split (s : GoString) (sep : Rune) :
    ∀ seps : List GoString, seps.length + 1 = (Split s sep).length →
      (∀ t ∈ seps, t = [sep]) → joinWith (Split s sep) seps = s := by
  induction s with
  | nil => intro seps _ _; simp [Split, joinWith]
  | cons x rest ih =>
    intro seps hl ht
    by_cases hx : x = sep
    · simp only [Split, hx, if_true, List.length_cons] at hl ⊢
      cases seps with
      | nil =>
        exfalso
        have := Split_ne_nil rest sep
        cases hs : Split rest sep with
        | nil => exact this hs
        | cons v vs => rw [hs] at hl; simp at hl
      | cons t ts =>
        have h1 : t = [sep] := ht t (by simp)
        have h2 := ih ts (by simpa using hl) (fun t' ht' => ht t' (by simp [ht']))
        cases hs : Split rest sep with
        | nil => exact absurd hs (Split_ne_nil rest sep)
        | cons v vs =>
          rw [hs] at h2
          simp [joinWith, h1, h2]
    · cases hs : Split rest sep with
      | nil => exact absurd hs (Split_ne_nil rest sep)
      | cons v vs =>
        have e : Split (x :: rest) sep = (x :: v) :: vs := by simp [Split, hx, hs]
        rw [e] at hl ⊢
        rw [joinWith_cons_cons, ← hs, ih seps (by rw [hs]; simpa using hl) ht]

theorem separator_cases (width indent count : Int) :
    (separator width indent count = LF :: spaces indent ↔ count > width) ∧
    (separator width indent count = [SP] ↔ ¬ count > width) := by
  unfold separator
  rw [spaces_eq]
  by_cases h : count > width
  · simp only [h, if_true, true_iff, not_true_eq_false, iff_false]
    refine ⟨trivial, ?_⟩
    intro e
    have : LF = SP := (List.cons.inj e).1
    exact absurd this (by decide)
  · simp only [h, if_false, iff_false, not_false_eq_true, iff_true]
    refine ⟨?_, trivial⟩
    intro e
    have : SP = LF := (List.cons.inj e).1
    exact absurd this (by decide)

/-- C7: the output of `paragraph` is the words of the text (split on single
spaces) with one separator after every word but the last; the separator after a
word is a newline followed by `indent` spaces exactly when the running count
there exceeds `width` (the count then restarts at `indent`), and a single space
otherwise (the count then grows by one); a count of exactly `width` does not
wrap and a count of `width + 1` does. -/
theorem paragraph_wrap_rule (u : UI) (text : GoString) (indent : Int) :
    u.paragraph text indent = joinWith (Split text SP)
      ((runningCounts u.width indent 0 (Split text SP)).dropLast.map
        (separator u.width indent)) ∧
    (∀ (count : Int) (word : GoString) (rest : List GoString),
      runningCounts u.width indent count (word :: rest)
        = (count + len word) :: runningCounts u.width indent
            (if count + len word > u.width then indent else count + len word + 1) rest) ∧
    (∀ count : Int,
      (separator u.width indent count = LF :: spaces indent ↔ count > u.width) ∧
      (separator u.width indent count = [SP] ↔ ¬ count > u.width)) ∧
    (∀ a b : GoString, SP ∉ a → SP ∉ b →
      (len a = u.width → u.paragraph (a ++ SP :: b) indent = a ++ SP :: b) ∧
      (len a = u.width + 1 →
        u.paragraph (a ++ SP :: b) indent = a ++ LF :: (spaces indent ++ b))) := by
  refine ⟨paragraph_eq u text indent, fun _ _ _ => rfl, separator_cases u.width indent, ?_⟩
  intro a b ha hb
  have hs : Split (a ++ SP :: b) SP = [a, b] := by
    rw [Split_append_sep a b SP ha, Split_of_not_mem b SP hb]
  constructor
  · intro hl
    rw [paragraph_eq, hs]
    simp [runningCounts, joinWith, separator, hl]
  · intro hl
    rw [paragraph_eq, hs]
    simp [runningCounts, joinWith, separator, hl, spaces_eq]

/-- Witness of C7: with width 5, a first word of five bytes is followed by a
space and a first word of six bytes by a newline and the indent. -/
theorem paragraph_wrap_rule_witness :
    (New 5).paragraph (lit "abcde fg") 2 = lit "abcde fg" ∧
    (New 5).paragraph (lit "abcdef g") 2 = lit "abcdef\n  g" :=
  ⟨((paragraph_wrap_rule (New 5) (lit "abcde fg") 2).2.2.2 (lit "abcde") (lit "fg")
      (by decide) (by decide)).1 (by decide),
   ((paragraph_wrap_rule (New 5) (lit "abcde fg") 2).2.2.2 (lit "abcdef") (lit "g")
      (by decide) (by decide)).2 (by decide)⟩

/-- C8, evaluated: with width 5, `paragraph("aaaa bbbb cccc", 0)` puts "aaaa"
and "bbbb" on the first line and wraps after "bbbb" only. -/
theorem paragraph_width5_first_line :
    (New 5).paragraph (lit "aaaa bbbb cccc") 0 = lit "aaaa bbbb\ncccc" ∧
    Split ((New 5).paragraph (lit "aaaa bbbb cccc") 0) LF = [lit "aaaa bbbb", lit "cccc"] := by
  decide

/-- C9, evaluated: with width 5 and a text whose words all fit in the width,
the first line of the output of `paragraph` is nine characters long. -/
theorem paragraph_line_exceeds_width :
    (∀ w ∈ Split (lit "aaaa bbbb cccc") SP, len w ≤ 5) ∧
    (Split ((New 5).paragraph (lit "aaaa bbbb cccc") 0) LF).head? = some (lit "aaaa bbbb") ∧
    (lit "aaaa bbbb").length = 9 ∧ len (lit "aaaa bbbb") = 9 ∧
    ¬ len (lit "aaaa bbbb") ≤ (New 5).width := by
  decide

/-- C10: for an indent that is not negative, the output of `paragraph` is the
words of the text (the pieces between single spaces, none holding a space), in
order and unchanged, with between two neighbours either one space or a newline
followed by exactly `indent` spaces; putting one space in place of every
separator gives the text back. -/
theorem paragraph_keeps_words (u : UI) (text : GoString) (indent : Int) (h : 0 ≤ indent) :
    ∃ seps : List GoString,
      seps.length + 1 = (Split text SP).length ∧
      (∀ s ∈ seps, s = [SP] ∨ s = LF :: spaces indent) ∧
      (spaces indent = List.replicate indent.toNat SP ∧ ((spaces indent).length : Int) = indent) ∧
      u.paragraph text indent = joinWith (Split text SP) seps ∧
      (∀ w ∈ Split text SP, SP ∉ w) ∧
      joinWith (Split text SP) (seps.map (fun _ => [SP])) = text := by
  refine ⟨(runningCounts u.width indent 0 (Split text SP)).dropLast.map
    (separator u.width indent), ?_, ?_, ?_, paragraph_eq u text indent, Split_not_mem text SP, ?_⟩
  · rw [List.length_map, List.length_dropLast, runningCounts_length]
    have := Split_ne_nil text SP
    cases hs : Split text SP with
    | nil => exact absurd hs this
    | cons v vs => simp
  · intro s hs
    rw [List.mem_map] at hs
    obtain ⟨count, _, rfl⟩ := hs
    by_cases hc : count > u.width
    · right; exact (separator_cases u.width indent count).1.2 hc
    · left; exact (separator_cases u.width indent count).2.2 hc
  · rw [spaces_eq]
    refine ⟨rfl, ?_⟩
    rw [List.length_replicate]
    exact Int.toNat_of_nonneg h
  · apply joinWith_Split
    · rw [List.length_map, List.length_map, List.length_dropLast, runningCounts_length]
      have := Split_ne_nil text SP
      cases hs : Split text SP with
      | nil => exact absurd hs this
      | cons v vs => simp
    · intro t ht
      rw [List.mem_map] at ht
      obtain ⟨_, _, rfl⟩ := ht
      rfl

/-- Witness of C10 at the text "aaaa bbbb cccc", width 5 and indent 2. -/
theorem paragraph_keeps_words_witness :
    (0 : Int) ≤ 2 ∧
    ∃ seps : List GoString,
      seps.length + 1 = (Split (lit "aaaa bbbb cccc") SP).length ∧
      (∀ s ∈ seps, s = [SP] ∨ s = LF :: spaces 2) ∧
      (spaces 2 = List.replicate (2 : Int).toNat SP ∧ ((spaces 2).length : Int) = 2) ∧
      (New 5).paragraph (lit "aaaa bbbb cccc") 2 = joinWith (Split (lit "aaaa bbbb cccc") SP) seps ∧
      (∀ w ∈ Split (lit "aaaa bbbb cccc") SP, SP ∉ w) ∧
      joinWith (Split (lit "aaaa bbbb cccc") SP) (seps.map (fun _ => [SP]))
        = lit "aaaa bbbb cccc" :=
  ⟨by decide, paragraph_keeps_words (New 5) (lit "aaaa bbbb cccc") 2 (by decide)⟩

/-! ## `QueryYesNo` -/

/-- A read that `QueryYesNo` passes over: no error, and neither "y" nor "n"
once trimmed. -/
theorem QueryYesNoLoop_skip (skipped : List ReadResult)
    (hs : ∀ r ∈ skipped, r.err = none ∧ TrimSpace r.str ≠ lit "y" ∧ TrimSpace r.str ≠ lit "n") :
    ∀ (rest : List ReadResult) (out : List Output),
      QueryYesNoLoop (skipped ++ rest) out
        = QueryYesNoLoop rest
            (out ++ List.replicate skipped.length (Output.Print (lit "Enter y|n: "))) := by
  induction skipped with
  | nil => intro rest out; simp
  | cons r more ih =>
    intro rest out
    obtain ⟨h1, h2, h3⟩ := hs r (by simp)
    have ih' := ih (fun r' hr' => hs r' (by simp [hr'])) rest
      (out ++ [Output.Print (lit "Enter y|n: ")])
    rw [List.cons_append, QueryYesNoLoop]
    simp only [h1, if_neg h2, if_neg h3]
    rw [ih', List.length_cons, List.replicate_succ, List.append_assoc, List.singleton_append]

theorem QueryYesNo_unfold (u : UI) (c : Console) :
    u.QueryYesNo c =
      ((QueryYesNoLoop c.stdin
          (c.stdout ++ (if u.nl = true then [Output.Println []] else []))).1,
        { rd := true, nl := true, width := u.width },
        (QueryYesNoLoop c.stdin
          (c.stdout ++ (if u.nl = true then [Output.Println []] else []))).2) := by
  obtain ⟨h1, h2, h3⟩ := newline_spec u c
  have hu : (u.newline c).1.reader = { rd := true, nl := true, width := u.width } := by
    rw [h1]; unfold UI.reader; split <;> simp_all
  simp only [UI.QueryYesNo]
  rw [hu, h2, h3]

theorem QueryYesNoLoop_prompts (stdin : List ReadResult) :
    ∀ out : List Output, ∃ k, 1 ≤ k ∧ k ≤ stdin.length + 1 ∧
      (QueryYesNoLoop stdin out).2.stdout
        = out ++ List.replicate k (Output.Print (lit "Enter y|n: ")) := by
  induction stdin with
  | nil => intro out; exact ⟨1, le_refl _, by simp, rfl⟩
  | cons r rest ih =>
    intro out
    unfold QueryYesNoLoop
    cases hr : r.err with
    | some e => exact ⟨1, le_refl _, by simp, rfl⟩
    | none =>
      simp only
      by_cases hy : TrimSpace r.str = lit "y"
      · rw [if_pos hy]; exact ⟨1, le_refl _, by simp, rfl⟩
      · rw [if_neg hy]
        by_cases hn : TrimSpace r.str = lit "n"
        · rw [if_pos hn]; exact ⟨1, le_refl _, by simp, rfl⟩
        · rw [if_neg hn]
          obtain ⟨k, hk1, hk2, he⟩ := ih (out ++ [Output.Print (lit "Enter y|n: ")])
          refine ⟨k + 1, by omega, by simp; omega, ?_⟩
          rw [he, List.replicate_succ, List.append_assoc, List.singleton_append]

/-- C11: `QueryYesNo` prints the separating empty line only if the flag is set,
once and before the first prompt; it then prints the prompt once for every read
it makes; it passes over every line that is neither "y" nor "n" once trimmed
and returns true or false, without error, at the first line that is; a read that
fails (the end of input included) returns the error at once, with no further
prompt; on every input it returns after at most one read more than there are
lines. -/
theorem QueryYesNo_spec (u : UI) (c : Console) (skipped rest : List ReadResult)
    (hs : ∀ r ∈ skipped, r.err = none ∧ TrimSpace r.str ≠ lit "y" ∧ TrimSpace r.str ≠ lit "n") :
    (∀ r : ReadResult, c.stdin = skipped ++ r :: rest → r.err = none →
      (TrimSpace r.str = lit "y" →
        u.QueryYesNo c = ((true, none), { rd := true, nl := true, width := u.width },
          ⟨rest, c.stdout ++ (if u.nl = true then [Output.Println []] else [])
            ++ List.replicate (skipped.length + 1) (Output.Print (lit "Enter y|n: "))⟩)) ∧
      (TrimSpace r.str = lit "n" →
        u.QueryYesNo c = ((false, none), { rd := true, nl := true, width := u.width },
          ⟨rest, c.stdout ++ (if u.nl = true then [Output.Println []] else [])
            ++ List.replicate (skipped.length + 1) (Output.Print (lit "Enter y|n: "))⟩))) ∧
    (∀ (r : ReadResult) (e : ReadError), c.stdin = skipped ++ r :: rest → r.err = some e →
      u.QueryYesNo c = ((false, some (UIError.failedToQueryUser e)),
        { rd := true, nl := true, width := u.width },
        ⟨rest, c.stdout ++ (if u.nl = true then [Output.Println []] else [])
          ++ List.replicate (skipped.length + 1) (Output.Print (lit "Enter y|n: "))⟩)) ∧
    (c.stdin = skipped →
      u.QueryYesNo c = ((false, some (UIError.failedToQueryUser ReadError.EOF)),
        { rd := true, nl := true, width := u.width },
        ⟨[], c.stdout ++ (if u.nl = true then [Output.Println []] else [])
          ++ List.replicate (skipped.length + 1) (Output.Print (lit "Enter y|n: "))⟩)) ∧
    (∃ k, 1 ≤ k ∧ k ≤ c.stdin.length + 1 ∧
      (u.QueryYesNo c).2.2.stdout = c.stdout ++ (if u.nl = true then [Output.Println []] else [])
        ++ List.replicate k (Output.Print (lit "Enter y|n: "))) := by
  have hrep : ∀ out : List Output,
      out ++ List.replicate skipped.length (Output.Print (lit "Enter y|n: "))
        ++ [Output.Print (lit "Enter y|n: ")]
      = out ++ List.replicate (skipped.length + 1) (Output.Print (lit "Enter y|n: ")) := by
    intro out
    rw [List.append_assoc, ← List.replicate_succ']
  refine ⟨?_, ?_, ?_, ?_⟩
  · intro r hc hr
    constructor
    · intro hy
      rw [QueryYesNo_unfold, hc, QueryYesNoLoop_skip skipped hs, QueryYesNoLoop]
      simp only [hr, if_pos hy, hrep]
    · intro hn
      have hy : TrimSpace r.str ≠ lit "y" := by rw [hn]; decide
      rw [QueryYesNo_unfold, hc, QueryYesNoLoop_skip skipped hs, QueryYesNoLoop]
      simp only [hr, if_neg hy, if_pos hn, hrep]
  · intro r e hc hr
    rw [QueryYesNo_unfold, hc, QueryYesNoLoop_skip skipped hs, QueryYesNoLoop]
    simp only [hr, hrep]
  · intro hc
    have := QueryYesNoLoop_skip skipped hs []
      (c.stdout ++ (if u.nl = true then [Output.Println []] else []))
    rw [List.append_nil] at this
    rw [QueryYesNo_unfold, hc, this, QueryYesNoLoop]
    simp only [hrep]
  · rw [QueryYesNo_unfold]
    exact QueryYesNoLoop_prompts c.stdin _

/-- Witness of C11: on the lines "maybe" and "y" there are two prompts, no
empty line on the second prompt, and the answer is true. -/
theorem QueryYesNo_spec_witness :
    (∀ r ∈ [(⟨lit "maybe\n", none⟩ : ReadResult)],
      r.err = none ∧ TrimSpace r.str ≠ lit "y" ∧ TrimSpace r.str ≠ lit "n") ∧
    (New 80).QueryYesNo ⟨[⟨lit "maybe\n", none⟩, ⟨lit "y\n", none⟩], []⟩
      = ((true, none), { rd := true, nl := true, width := 80 },
        ⟨[], [Output.Print (lit "Enter y|n: "), Output.Print (lit "Enter y|n: ")]⟩) :=
  ⟨by decide,
   ((QueryYesNo_spec (New 80) ⟨[⟨lit "maybe\n", none⟩, ⟨lit "y\n", none⟩], []⟩
      [⟨lit "maybe\n", none⟩] [] (by decide)).1 ⟨lit "y\n", none⟩ rfl rfl).1 (by decide)⟩

/-! ## `Display` -/

theorem paragraph_width (u v : UI) (h : u.width = v.width) (text : GoString) (indent : Int) :
    u.paragraph text indent = v.paragraph text indent := by
  unfold UI.paragraph; rw [h]

/-- What `Display` prints: the separating empty line if the flag is set, the
title line wrapped with indent 4, the story behind four spaces wrapped with
indent 4. -/
theorem Display_stdout (u : UI) (c : Console) (tasks : TaskQueue) (index : Int) :
    (u.Display c tasks index).2.stdout
      = c.stdout ++ (if u.nl = true then [Output.Println []] else []) ++
        [Output.Println [u.paragraph
            (formatInt index ++ lit ". " ++ (if index < 10 then lit " " else []) ++
              (if index ≤ tasks.LastOpenedIndex then lit "[open] " else lit "[todo] ") ++
              (tasks.At index).Title) 4],
          Output.Println [u.paragraph (spaces 4 ++ (tasks.At index).Story) 4]] := by
  obtain ⟨h1, _, h3⟩ := newline_spec u c
  have hw : ∀ text indent, (u.newline c).1.paragraph text indent = u.paragraph text indent :=
    fun text indent => paragraph_width _ _ (by rw [h1]) text indent
  simp only [UI.Display, Println, hw]
  rw [h3]
  by_cases h10 : index < 10 <;> by_cases ho : index ≤ tasks.LastOpenedIndex <;>
    simp [h10, ho]

/-- C12: the title line that `Display` builds is the number prefix, then the
tag, then the title of the task at the index; the tag is "[open] " exactly when
`index <= LastOpenedIndex()` and "[todo] " otherwise. -/
theorem Display_tag (u : UI) (c : Console) (tasks : TaskQueue) (index : Int) :
    ∃ tag : GoString,
      (tag = lit "[open] " ↔ index ≤ tasks.LastOpenedIndex) ∧
      (tag = lit "[todo] " ↔ ¬ index ≤ tasks.LastOpenedIndex) ∧
      (u.Display c tasks index).2.stdout
        = c.stdout ++ (if u.nl = true then [Output.Println []] else []) ++
          [Output.Println [u.paragraph
              (formatInt index ++ lit ". " ++ (if index < 10 then lit " " else []) ++ tag ++
                (tasks.At index).Title) 4],
            Output.Println [u.paragraph (spaces 4 ++ (tasks.At index).Story) 4]] := by
  by_cases ho : index ≤ tasks.LastOpenedIndex
  · refine ⟨lit "[open] ", ⟨fun _ => ho, fun _ => rfl⟩, ?_, ?_⟩
    · constructor
      · intro h; exact absurd h (by decide)
      · intro h; exact absurd ho h
    · rw [Display_stdout, if_pos ho]
  · refine ⟨lit "[todo] ", ?_, ⟨fun _ => ho, fun _ => rfl⟩, ?_⟩
    · constructor
      · intro h; exact absurd h (by decide)
      · intro h; exact absurd h ho
    · rw [Display_stdout, if_neg ho]

/-- With a queue whose last opened index is 5, index 3 and index 5 are shown as
open and index 7 as to do. -/
theorem Display_tag_example :
    ((New 80).Display ⟨[], []⟩ ⟨fun _ => ⟨lit "T", lit "s"⟩, 5⟩ 3).2.stdout
      = [Output.Println [lit "3.  [open] T"], Output.Println [lit "    s"]] ∧
    ((New 80).Display ⟨[], []⟩ ⟨fun _ => ⟨lit "T", lit "s"⟩, 5⟩ 5).2.stdout
      = [Output.Println [lit "5.  [open] T"], Output.Println [lit "    s"]] ∧
    ((New 80).Display ⟨[], []⟩ ⟨fun _ => ⟨lit "T", lit "s"⟩, 5⟩ 7).2.stdout
      = [Output.Println [lit "7.  [todo] T"], Output.Println [lit "    s"]] := by
  exact ⟨by decide, by decide, by decide⟩

/-- C17: for an index from 0 to 99 the text that `Display` puts before the tag
(the number, a dot, a space, and one more space below 10) is four characters
and four bytes long, as long as the four spaces put before the story and the
indent 4 of both wrapped paragraphs. -/
theorem Display_prefix_aligned (index : Int) (h0 : 0 ≤ index) (h99 : index ≤ 99) :
    (formatInt index ++ lit ". " ++ (if index < 10 then lit " " else [])).length = 4 ∧
    len (formatInt index ++ lit ". " ++ (if index < 10 then lit " " else [])) = 4 ∧
    (spaces 4).length = 4 ∧ len (spaces 4) = 4 ∧
    ∀ (u : UI) (c : Console) (tasks : TaskQueue),
      (u.Display c tasks index).2.stdout
        = c.stdout ++ (if u.nl = true then [Output.Println []] else []) ++
          [Output.Println [u.paragraph
              (formatInt index ++ lit ". " ++ (if index < 10 then lit " " else []) ++
                (if index ≤ tasks.LastOpenedIndex then lit "[open] " else lit "[todo] ") ++
                (tasks.At index).Title) 4],
            Output.Println [u.paragraph (spaces 4 ++ (tasks.At index).Story) 4]] := by
  have key : ∀ n : Fin 100,
      (formatInt (n.val : Int) ++ lit ". "
        ++ (if ((n.val : Int)) < 10 then lit " " else [])).length = 4 ∧
      len (formatInt (n.val : Int) ++ lit ". "
        ++ (if ((n.val : Int)) < 10 then lit " " else [])) = 4 := by
    decide
  obtain ⟨n, hn⟩ := Int.eq_ofNat_of_zero_le h0
  have hlt : n < 100 := by omega
  have := key ⟨n, hlt⟩
  simp only [← hn] at this
  exact ⟨this.1, this.2, by decide, by decide, fun u c tasks => Display_stdout u c tasks index⟩

/-- Witness of C17 at the indices 7 and 42. -/
theorem Display_prefix_aligned_witness :
    formatInt 7 ++ lit ". " ++ lit " " = lit "7.  " ∧
    (formatInt 7 ++ lit ". " ++ (if (7 : Int) < 10 then lit " " else [])).length = 4 ∧
    formatInt 42 ++ lit ". " = lit "42. " ∧
    (formatInt 42 ++ lit ". " ++ (if (42 : Int) < 10 then lit " " else [])).length = 4 :=
  ⟨by decide, (Display_prefix_aligned 7 (by decide) (by decide)).1,
   by decide, (Display_prefix_aligned 42 (by decide) (by decide)).1⟩

/-! ## `Normalize` twice -/

theorem TrimSpace_eq_self (s : GoString)
    (hh : ∀ x, s.head? = some x → x.isSpace = false)
    (hl : ∀ x, s.getLast? = some x → x.isSpace = false) : TrimSpace s = s := by
  unfold TrimSpace
  have h1 : List.dropWhile Rune.isSpace s = s := by
    cases s with
    | nil => rfl
    | cons x rest =>
      have := hh x rfl
      simp [List.dropWhile, this]
  rw [h1, List.rdropWhile_eq_self_iff]
  intro hne
  have := hl (s.getLast hne) (List.getLast?_eq_getLast _ hne)
  simp [this]

theorem replaceSpaceRuns_mem (s : GoString) :
    ∀ b : Bool, ∀ x ∈ replaceSpaceRuns [SP] b s, x.isReSpace = true → x = SP := by
  induction s with
  | nil => intro b x hx; simp [replaceSpaceRuns] at hx
  | cons y rest ih =>
    intro b x hx hr
    by_cases hy : y.isReSpace = true
    · cases b
      · simp only [replaceSpaceRuns, hy, if_true, Bool.false_eq_true, if_false,
          List.singleton_append, List.mem_cons] at hx
        rcases hx with rfl | hx
        · rfl
        · exact ih true x hx hr
      · simp only [replaceSpaceRuns, hy, if_true] at hx
        exact ih true x hx hr
    · have hy' : y.isReSpace = false := by simpa using hy
      have he : replaceSpaceRuns [SP] b (y :: rest) = y :: replaceSpaceRuns [SP] false rest := by
        simp [replaceSpaceRuns, hy']
      rw [he, List.mem_cons] at hx
      rcases hx with rfl | hx
      · exact absurd hr hy
      · exact ih false x hx hr

theorem replaceSpaceRuns_eq_self (s : GoString) :
    ∀ b : Bool, List.Chain' NoSpaceRun s → (∀ x ∈ s, x.isReSpace = true → x = SP) →
      (b = true → ∀ x, s.head? = some x → x.isReSpace = false) →
      replaceSpaceRuns [SP] b s = s := by
  induction s with
  | nil => intro b _ _ _; rfl
  | cons y rest ih =>
    intro b hc hm hb
    have hc' : List.Chain' NoSpaceRun rest := hc.tail
    have hm' : ∀ x ∈ rest, x.isReSpace = true → x = SP :=
      fun x hx => hm x (List.mem_cons_of_mem _ hx)
    by_cases hy : y.isReSpace = true
    · have hySP : y = SP := hm y (by simp) hy
      have hb' : b = false := by
        cases b with
        | false => rfl
        | true => have := hb rfl y rfl; rw [hy] at this; cases this
      subst hb'
      have hrest : ∀ x, rest.head? = some x → x.isReSpace = false := by
        intro x hx
        cases rest with
        | nil => simp at hx
        | cons z zs =>
          simp only [List.head?_cons, Option.some.injEq] at hx
          subst hx
          have := List.chain'_cons.1 hc
          have h2 : ¬ (y.isReSpace = true ∧ z.isReSpace = true) := this.1
          cases hz : z.isReSpace with
          | false => rfl
          | true => exact absurd ⟨hy, hz⟩ h2
      simp only [replaceSpaceRuns, hy, if_true, Bool.false_eq_true, if_false,
        List.singleton_append]
      rw [ih true hc' hm' (fun _ => hrest), hySP]
    · have hy' : y.isReSpace = false := by simpa using hy
      have he : replaceSpaceRuns [SP] b (y :: rest) = y :: replaceSpaceRuns [SP] false rest := by
        simp [replaceSpaceRuns, hy']
      rw [he, ih false hc' hm' (fun h => by cases h)]

theorem trim_mem (s : GoString) : ∀ x ∈ trim s, x.isReSpace = true → x = SP := by
  unfold trim ReplaceAllString
  rw [lit_space]
  exact replaceSpaceRuns_mem _ false

/-- A string with no white space at either end, in which `\s` occurs only as
single spaces, is left as it is by `trim`. -/
theorem trim_eq_self (s : GoString)
    (hh : ∀ x, s.head? = some x → x.isSpace = false)
    (hl : ∀ x, s.getLast? = some x → x.isSpace = false)
    (hc : List.Chain' NoSpaceRun s) (hm : ∀ x ∈ s, x.isReSpace = true → x = SP) :
    trim s = s := by
  unfold trim ReplaceAllString
  rw [lit_space, TrimSpace_eq_self s hh hl]
  exact replaceSpaceRuns_eq_self s false hc hm (fun h => by cases h)

theorem trim_trim (s : GoString) : trim (trim s) = trim s :=
  trim_eq_self _ (trim_head_not_space s) (trim_getLast_not_space s) (trim_chain s) (trim_mem s)

/-- Under a case table that never makes white space, the upper-cased form of a
cleaned string is left as it is by `trim`. -/
theorem trim_ToUpper_trim (u : Nat → Nat)
    (hU : ∀ r, 0x7F < r → IsSpace (u r) = true → u r = r) (s : GoString) :
    trim (ToUpper u (trim s)) = ToUpper u (trim s) := by
  have up : ∀ y : Rune, (Rune.valid (unicodeToUpper u y.value)).isSpace = true →
      y.isSpace = true ∧ unicodeToUpper u y.value = y.value := by
    intro y hy
    have := unicodeToUpper_space u hU y.value hy
    refine ⟨?_, this⟩
    have hy' : IsSpace (unicodeToUpper u y.value) = true := hy
    rw [this] at hy'
    exact hy'
  have up' : ∀ y : Rune, y.isSpace = false →
      (Rune.valid (unicodeToUpper u y.value)).isSpace = false := by
    intro y hy
    cases hs : (Rune.valid (unicodeToUpper u y.value)).isSpace with
    | false => rfl
    | true => rw [(up y hs).1] at hy; cases hy
  have sp : ∀ y : Rune, (Rune.valid (unicodeToUpper u y.value)).isReSpace = true →
      y.isReSpace = true ∧ unicodeToUpper u y.value = y.value := by
    intro y hy
    have h3 := (up y (isReSpace_imp_isSpace hy)).2
    have hy' : reSpace (unicodeToUpper u y.value) = true := hy
    rw [h3] at hy'
    exact ⟨hy', h3⟩
  apply trim_eq_self
  · intro x hx
    rw [ToUpper, List.head?_map] at hx
    cases hd : (trim s).head? with
    | none => rw [hd] at hx; simp at hx
    | some y =>
      rw [hd] at hx
      simp only [Option.map_some', Option.some.injEq] at hx
      rw [← hx]
      exact up' y (trim_head_not_space _ y hd)
  · intro x hx
    rw [ToUpper, List.getLast?_map] at hx
    cases hd : (trim s).getLast? with
    | none => rw [hd] at hx; simp at hx
    | some y =>
      rw [hd] at hx
      simp only [Option.map_some', Option.some.injEq] at hx
      rw [← hx]
      exact up' y (trim_getLast_not_space _ y hd)
  · rw [ToUpper, List.chain'_map]
    refine (trim_chain s).imp ?_
    intro a b hab hc
    exact hab ⟨(sp a hc.1).1, (sp b hc.2).1⟩
  · intro x hx hr
    rw [ToUpper, List.mem_map] at hx
    obtain ⟨y, hy, rfl⟩ := hx
    obtain ⟨h1, h2⟩ := sp y hr
    have := trim_mem s y hy h1
    subst this
    rw [h2]; rfl

/-- C18: under a case table that never makes white space and whose mapping is
idempotent, a task on which `Normalize` has succeeded is normalised again with
success and without change. -/
theorem Normalize_idempotent (upperCase : Nat → Nat)
    (hU : ∀ r, 0x7F < r → IsSpace (upperCase r) = true → upperCase r = r)
    (hI : ∀ r, unicodeToUpper upperCase (unicodeToUpper upperCase r)
      = unicodeToUpper upperCase r)
    (t t' : Task) (h : t.Normalize upperCase = (t', none)) :
    t'.Normalize upperCase = (t', none) ∧
    trim t'.Title = t'.Title ∧ trim t'.Story = t'.Story ∧
    ToUpper upperCase t'.Title = t'.Title := by
  obtain ⟨h1, h2, hT, hS⟩ := Normalize_ok upperCase t t' h
  have e1 : trim t'.Title = t'.Title := by rw [hT]; exact trim_ToUpper_trim upperCase hU _
  have e2 : trim t'.Story = t'.Story := by rw [hS]; exact trim_trim _
  have e3 : ToUpper upperCase t'.Title = t'.Title := by
    rw [hT]
    unfold ToUpper
    rw [List.map_map]
    apply List.map_congr_left
    intro x _
    simp only [Function.comp, Rune.value]
    rw [hI]
  have n1 : t'.Title ≠ [] := by rw [hT, Ne, ToUpper_eq_nil]; exact h1
  have n2 : t'.Story ≠ [] := by rw [hS]; exact h2
  refine ⟨?_, e1, e2, e3⟩
  unfold Task.Normalize
  simp only [e1, e2, e3, n1, n2, if_false]

/-- Witness of C18 at a normalised task with a letter above U+007F. -/
theorem Normalize_idempotent_witness :
    Task.Normalize sampleUpperCase ⟨lit " héllo  world ", lit "\ta \n b "⟩
      = (⟨lit "HÉLLO WORLD", lit "a b"⟩, none) ∧
    Task.Normalize sampleUpperCase ⟨lit "HÉLLO WORLD", lit "a b"⟩
      = (⟨lit "HÉLLO WORLD", lit "a b"⟩, none) :=
  ⟨by decide,
   (Normalize_idempotent sampleUpperCase sampleUpperCase_space sampleUpperCase_idem
      ⟨lit " héllo  world ", lit "\ta \n b "⟩ ⟨lit "HÉLLO WORLD", lit "a b"⟩
      (by decide)).1⟩

/-! ## Lines of a paragraph -/

theorem paragraphLoopState_fst (width indent n : Int) (ws : List GoString) :
    ∀ (i : Int) (str : GoString) (count : Int),
      (paragraphLoopState width indent n i ws str count).1
        = paragraphLoop width indent n i ws str count := by
  induction ws with
  | nil => intro i str count; rfl
  | cons w rest ih =>
    intro i str count
    unfold paragraphLoopState paragraphLoop
    simp only
    split
    · split
      · exact ih _ _ _
      · exact ih _ _ _
    · exact ih _ _ _

theorem len_nil : len [] = 0 := rfl

theorem len_append (a b : GoString) : len (a ++ b) = len a + len b := by
  simp [len]

theorem len_nonneg (a : GoString) : 0 ≤ len a := by
  unfold len; exact Int.ofNat_zero_le _

theorem len_SP : len [SP] = 1 := rfl

theorem len_replicate_SP (n : Nat) : len (List.replicate n SP) = n := by
  induction n with
  | zero => rfl
  | succ m ih =>
    rw [List.replicate_succ, ← List.singleton_append, len_append, ih, len_SP]
    push_cast; ring

theorem len_spaces (indent : Int) (h : 0 ≤ indent) : len (spaces indent) = indent := by
  rw [spaces_eq, len_replicate_SP]
  exact Int.toNat_of_nonneg h

theorem not_mem_spaces (indent : Int) : LF ∉ spaces indent := by
  rw [spaces_eq]
  intro h
  have := List.eq_of_mem_replicate h
  exact absurd this (by decide)

theorem Split_mem_subset (s : GoString) (sep : Rune) :
    ∀ w ∈ Split s sep, ∀ x ∈ w, x ∈ s := by
  induction s with
  | nil => intro w hw x hx; simp [Split] at hw; subst hw; simp at hx
  | cons y rest ih =>
    intro w hw x hx
    by_cases hy : y = sep
    · simp only [Split, hy, if_true, List.mem_cons] at hw
      rcases hw with rfl | hw
      · simp at hx
      · exact List.mem_cons_of_mem _ (ih w hw x hx)
    · cases hs : Split rest sep with
      | nil => exact absurd hs (Split_ne_nil rest sep)
      | cons v vs =>
        rw [hs] at ih
        simp only [Split, hy, if_false, hs, List.mem_cons] at hw
        rcases hw with rfl | hw
        · rcases List.mem_cons.1 hx with e | e
          · rw [e]; simp
          · exact List.mem_cons_of_mem _ (ih v (by simp) x e)
        · exact List.mem_cons_of_mem _ (ih w (by simp [hw]) x hx)

/-- Splitting at a separator written between two texts splits each of them. -/
theorem Split_append_cons (a b : GoString) (sep : Rune) :
    Split (a ++ sep :: b) sep = Split a sep ++ Split b sep := by
  induction a with
  | nil => simp [Split]
  | cons x rest ih =>
    by_cases hx : x = sep
    · simp [Split, hx, ih]
    · cases hs : Split rest sep with
      | nil => exact absurd hs (Split_ne_nil rest sep)
      | cons v vs =>
        rw [hs] at ih
        simp [Split, hx, ih, hs]

/-- A text without separator put in front of a text joins its first piece. -/
theorem Split_append_left (a b : GoString) (sep : Rune) (h : sep ∉ a)
    (p : GoString) (ps : List GoString) (hb : Split b sep = p :: ps) :
    Split (a ++ b) sep = (a ++ p) :: ps := by
  induction a with
  | nil => simpa using hb
  | cons x rest ih =>
    have hx : ¬ x = sep := fun e => h (by simp [e])
    have hr : sep ∉ rest := fun e => h (List.mem_cons_of_mem _ e)
    simp [Split, hx, ih hr]

/-- A text without separator put behind a text joins its last piece. -/
theorem Split_append_right (a b : GoString) (sep : Rune) (h : sep ∉ b) :
    Split (a ++ b) sep
      = (Split a sep).dropLast ++ [(Split a sep).getLast?.getD [] ++ b] := by
  induction a with
  | nil => simp [Split, Split_of_not_mem b sep h]
  | cons x rest ih =>
    cases hs : Split rest sep with
    | nil => exact absurd hs (Split_ne_nil rest sep)
    | cons v vs =>
      rw [hs] at ih
      by_cases hx : x = sep
      · have e1 : Split (x :: (rest ++ b)) sep = [] :: Split (rest ++ b) sep := by
          simp [Split, hx]
        have e2 : Split (x :: rest) sep = [] :: v :: vs := by simp [Split, hx, hs]
        rw [List.cons_append, e1, e2, ih]
        simp [List.dropLast, List.getLast?_cons_cons]
      · cases vs with
        | nil =>
          have ih' : Split (rest ++ b) sep = [v ++ b] := by simpa using ih
          have e1 : Split (x :: (rest ++ b)) sep = [x :: (v ++ b)] := by
            simp [Split, hx, ih']
          have e2 : Split (x :: rest) sep = [x :: v] := by simp [Split, hx, hs]
          rw [List.cons_append, e1, e2]
          simp
        | cons v' vs' =>
          have ih' : Split (rest ++ b) sep
              = v :: ((v' :: vs').dropLast ++ [(v' :: vs').getLast?.getD [] ++ b]) := by
            simpa [List.dropLast, List.getLast?_cons_cons] using ih
          have e1 : Split (x :: (rest ++ b)) sep
              = (x :: v) :: ((v' :: vs').dropLast ++ [(v' :: vs').getLast?.getD [] ++ b]) := by
            simp [Split, hx, ih']
          have e2 : Split (x :: rest) sep = (x :: v) :: v' :: vs' := by simp [Split, hx, hs]
          rw [List.cons_append, e1, e2]
          simp [List.dropLast, List.getLast?_cons_cons]

theorem lastLine_append (a b : GoString) (h : LF ∉ b) : lastLine (a ++ b) = lastLine a ++ b := by
  unfold lastLine lines
  rw [Split_append_right a b LF h]
  simp

theorem lastLine_append_LF (a b : GoString) (h : LF ∉ b) : lastLine (a ++ LF :: b) = b := by
  unfold lastLine lines
  rw [Split_append_cons, Split_of_not_mem b LF h]
  simp

theorem lit_newline_spaces (indent : Int) : lit "\n" ++ spaces indent = LF :: spaces indent := rfl

/-- The loop of `paragraph` keeps `count` equal to the byte length of the last
line of `str`. -/
theorem paragraphLoopState_count (width indent n : Int) (h0 : 0 ≤ indent) (ws : List GoString) :
    ∀ (i : Int) (str : GoString) (count : Int), (∀ w ∈ ws, LF ∉ w) →
      len (lastLine str) = count →
      len (lastLine (paragraphLoopState width indent n i ws str count).1)
        = (paragraphLoopState width indent n i ws str count).2 := by
  induction ws with
  | nil => intro i str count _ h; exact h
  | cons w rest ih =>
    intro i str count hw h
    have hw1 : LF ∉ w := hw w (by simp)
    have hr : ∀ w' ∈ rest, LF ∉ w' := fun w' h' => hw w' (List.mem_cons_of_mem _ h')
    have h1 : len (lastLine (str ++ w)) = count + len w := by
      rw [lastLine_append _ _ hw1, len_append, h]
    unfold paragraphLoopState
    simp only
    split
    · split
      · apply ih _ _ _ hr
        rw [lit_newline_spaces, lastLine_append_LF _ _ (not_mem_spaces indent),
          len_spaces indent h0]
      · apply ih _ _ _ hr
        rw [lit_space, lastLine_append _ _ (by decide), len_append, h1, len_SP]
    · exact ih _ _ _ hr h1

theorem runningCounts_dropLast_cons (width indent count : Int) (word next : GoString)
    (more : List GoString) :
    (runningCounts width indent count (word :: next :: more)).dropLast
      = (count + len word) ::
        (runningCounts width indent
          (if count + len word > width then indent else count + len word + 1)
          (next :: more)).dropLast := by
  rw [runningCounts]
  cases hr : runningCounts width indent
      (if count + len word > width then indent else count + len word + 1) (next :: more) with
  | nil =>
    have := runningCounts_length width indent (next :: more)
      (if count + len word > width then indent else count + len word + 1)
    rw [hr] at this; simp at this
  | cons a l => rfl

/-- The lines of a paragraph written behind a current line `cur` of length
`c`: every line but the last is longer than the width, and no line is longer
than the larger of `indent` and `width + 1` plus the bound `L` on the words. -/
theorem lines_joinWith (W I L : Int) (h0 : 0 ≤ I) (hL : 0 ≤ L) (ws : List GoString) :
    ∀ (c : Int) (cur : GoString), LF ∉ cur → len cur = c → c ≤ max I (W + 1) →
      (∀ w ∈ ws, LF ∉ w ∧ len w ≤ L) →
      (∀ l ∈ (lines (cur ++ joinWith ws
          ((runningCounts W I c ws).dropLast.map (separator W I)))).dropLast, len l > W) ∧
      (∀ l ∈ lines (cur ++ joinWith ws
          ((runningCounts W I c ws).dropLast.map (separator W I))), len l ≤ max I (W + 1) + L) := by
  induction ws with
  | nil =>
    intro c cur hcur hlen hc _
    simp only [joinWith, List.append_nil, lines, Split_of_not_mem cur LF hcur]
    refine ⟨by simp, ?_⟩
    intro l hl
    simp only [List.mem_singleton] at hl
    subst hl; omega
  | cons w rest ih =>
    intro c cur hcur hlen hc hws
    obtain ⟨hw1, hw2⟩ := hws w (by simp)
    have hrest : ∀ w' ∈ rest, LF ∉ w' ∧ len w' ≤ L :=
      fun w' h' => hws w' (List.mem_cons_of_mem _ h')
    cases rest with
    | nil =>
      have hcw : LF ∉ cur ++ w := by
        intro h; rcases List.mem_append.1 h with h | h
        · exact hcur h
        · exact hw1 h
      simp only [joinWith, lines, Split_of_not_mem (cur ++ w) LF hcw]
      refine ⟨by simp, ?_⟩
      intro l hl
      simp only [List.mem_singleton] at hl
      subst hl
      rw [len_append]; omega
    | cons next more =>
      have hcw : LF ∉ cur ++ w := by
        intro h; rcases List.mem_append.1 h with h | h
        · exact hcur h
        · exact hw1 h
      rw [runningCounts_dropLast_cons, List.map_cons]
      by_cases hwrap : c + len w > W
      · have hsep : separator W I (c + len w) = LF :: spaces I :=
          (separator_cases W I (c + len w)).1.2 hwrap
        obtain ⟨ih1, ih2⟩ := ih I (spaces I) (not_mem_spaces I) (len_spaces I h0)
          (le_max_left _ _) hrest
        have e : cur ++ joinWith (w :: next :: more)
            (separator W I (c + len w) ::
              List.map (separator W I)
                (runningCounts W I (if c + len w > W then I else c + len w + 1)
                  (next :: more)).dropLast)
            = (cur ++ w) ++ LF :: (spaces I ++ joinWith (next :: more)
                (List.map (separator W I) (runningCounts W I I (next :: more)).dropLast)) := by
          simp [joinWith, hsep, hwrap]
        rw [e]
        simp only [lines] at ih1 ih2 ⊢
        rw [Split_append_cons, Split_of_not_mem (cur ++ w) LF hcw, List.singleton_append,
          List.dropLast_cons_of_ne_nil (Split_ne_nil _ _)]
        constructor
        · intro l hl
          rcases List.mem_cons.1 hl with rfl | hl
          · rw [len_append, hlen]; exact hwrap
          · exact ih1 l hl
        · intro l hl
          rcases List.mem_cons.1 hl with rfl | hl
          · rw [len_append]; omega
          · exact ih2 l hl
      · have hsep : separator W I (c + len w) = [SP] :=
          (separator_cases W I (c + len w)).2.2 hwrap
        have hcur' : LF ∉ cur ++ w ++ [SP] := by
          intro h; rcases List.mem_append.1 h with h | h
          · exact hcw h
          · exact absurd (List.mem_singleton.1 h) (by decide)
        have hlen' : len (cur ++ w ++ [SP]) = c + len w + 1 := by
          rw [len_append, len_append, hlen, len_SP]
        obtain ⟨ih1, ih2⟩ := ih (c + len w + 1) (cur ++ w ++ [SP]) hcur' hlen'
          (by have := le_max_right I (W + 1); omega) hrest
        have e : cur ++ joinWith (w :: next :: more)
            (separator W I (c + len w) ::
              List.map (separator W I)
                (runningCounts W I (if c + len w > W then I else c + len w + 1)
                  (next :: more)).dropLast)
            = (cur ++ w ++ [SP]) ++ joinWith (next :: more)
                (List.map (separator W I)
                  (runningCounts W I (c + len w + 1) (next :: more)).dropLast) := by
          simp [joinWith, hsep, hwrap]
        rw [e]
        exact ⟨ih1, ih2⟩

/-- C19: for a text without newline and an indent that is not negative, after
any number of rounds of the loop of `paragraph` the running count is the byte
length of the last line of the output so far; every line of the output but the
last is longer than the width; and no line is longer than the larger of
`indent` and `width + 1` plus any bound on the byte lengths of the words. -/
theorem paragraph_lines (u : UI) (text : GoString) (indent : Int)
    (hn : LF ∉ text) (h0 : 0 ≤ indent) :
    (∀ k : Nat,
      len (lastLine (paragraphLoopState u.width indent (Split text SP).length 0
          ((Split text SP).take k) [] 0).1)
        = (paragraphLoopState u.width indent (Split text SP).length 0
          ((Split text SP).take k) [] 0).2) ∧
    (paragraphLoopState u.width indent (Split text SP).length 0 (Split text SP) [] 0).1
      = u.paragraph text indent ∧
    (∀ l ∈ (lines (u.paragraph text indent)).dropLast, len l > u.width) ∧
    (∀ L : Int, (∀ w ∈ Split text SP, len w ≤ L) →
      ∀ l ∈ lines (u.paragraph text indent), len l ≤ max indent (u.width + 1) + L) := by
  have hw : ∀ w ∈ Split text SP, LF ∉ w :=
    fun w hw h => hn (Split_mem_subset text SP w hw LF h)
  refine ⟨?_, ?_, ?_, ?_⟩
  · intro k
    apply paragraphLoopState_count u.width indent _ h0
    · intro w hk
      exact hw w (List.mem_of_mem_take hk)
    · rfl
  · rw [paragraphLoopState_fst]; rfl
  · have hb : ∃ L : Int, 0 ≤ L ∧ ∀ w ∈ Split text SP, len w ≤ L := by
      refine ⟨((Split text SP).map (fun w => (len w).toNat)).sum, Int.ofNat_zero_le _, ?_⟩
      intro w hm
      have h1 : (len w).toNat ≤ ((Split text SP).map (fun w => (len w).toNat)).sum :=
        List.single_le_sum (fun _ _ => Nat.zero_le _) _ (List.mem_map_of_mem _ hm)
      have h2 := len_nonneg w
      omega
    obtain ⟨L, hL0, hL⟩ := hb
    have key := lines_joinWith u.width indent L h0 hL0 (Split text SP) 0 [] (by simp) rfl
      (by have := le_max_left indent (u.width + 1); omega) (fun w hm => ⟨hw w hm, hL w hm⟩)
    rw [paragraph_eq]
    simpa using key.1
  · intro L hL
    obtain ⟨w0, hw0⟩ := List.exists_mem_of_ne_nil _ (Split_ne_nil text SP)
    have hL0 : 0 ≤ L := le_trans (len_nonneg w0) (hL w0 hw0)
    have key := lines_joinWith u.width indent L h0 hL0 (Split text SP) 0 [] (by simp) rfl
      (by have := le_max_left indent (u.width + 1); omega) (fun w hm => ⟨hw w hm, hL w hm⟩)
    rw [paragraph_eq]
    simpa using key.2

/-- Witness of C19 at the text "aaaa bbbb cccc", width 5 and indent 2: the
line before the last is nine bytes long. -/
theorem paragraph_lines_witness :
    lines ((New 5).paragraph (lit "aaaa bbbb cccc") 2) = [lit "aaaa bbbb", lit "  cccc"] ∧
    ∀ l ∈ (lines ((New 5).paragraph (lit "aaaa bbbb cccc") 2)).dropLast, len l > (New 5).width :=
  ⟨by decide,
   (paragraph_lines (New 5) (lit "aaaa bbbb cccc") 2 (by decide) (by decide)).2.2.1⟩

/-! ## The story in `Display` -/

theorem spaces_four : spaces 4 = [SP, SP, SP, SP] := rfl

theorem joinWith_cons_cons_sep (w w' sep : GoString) (ws seps : List GoString) :
    joinWith (w :: w' :: ws) (sep :: seps) = w ++ sep ++ joinWith (w' :: ws) seps := by
  simp [joinWith]

/-- Behind four spaces and a current line that is empty or starts with a
character other than a space, the words of a normalised story make lines that
all start with exactly four spaces and a character other than a space. -/
theorem lines_FourSpace (W : Int) (ws : List GoString) :
    ∀ (c : Int) (p : GoString), LF ∉ p →
      (p = [] ∨ ∃ x rest, p = x :: rest ∧ x ≠ SP) → ws ≠ [] →
      (∀ w ∈ ws, w ≠ [] ∧ SP ∉ w ∧ LF ∉ w) →
      ∀ l ∈ lines ([SP, SP, SP, SP] ++ p ++ joinWith ws
          ((runningCounts W 4 c ws).dropLast.map (separator W 4))), FourSpaceLine l := by
  induction ws with
  | nil => intro c p _ _ h; exact absurd rfl h
  | cons w rest ih =>
    intro c p hp hstart _ hws
    obtain ⟨hw1, hw2, hw3⟩ := hws w (by simp)
    have hrest : ∀ w' ∈ rest, w' ≠ [] ∧ SP ∉ w' ∧ LF ∉ w' :=
      fun w' h' => hws w' (List.mem_cons_of_mem _ h')
    have hline : LF ∉ [SP, SP, SP, SP] ++ p ++ w := by
      intro h
      rcases List.mem_append.1 h with h | h
      · rcases List.mem_append.1 h with h | h
        · exact absurd h (by decide)
        · exact hp h
      · exact hw3 h
    have hgood : FourSpaceLine ([SP, SP, SP, SP] ++ p ++ w) := by
      rcases hstart with rfl | ⟨x, r, rfl, hx⟩
      · cases w with
        | nil => exact absurd rfl hw1
        | cons y ys =>
          exact ⟨y, ys, by simp, fun e => hw2 (by simp [e])⟩
      · exact ⟨x, r ++ w, by simp, hx⟩
    cases rest with
    | nil =>
      intro l hl
      simp only [joinWith, lines, Split_of_not_mem _ LF hline, List.mem_singleton] at hl
      subst hl; exact hgood
    | cons next more =>
      rw [runningCounts_dropLast_cons, List.map_cons, joinWith_cons_cons_sep]
      by_cases hwrap : c + len w > W
      · have hsep : separator W 4 (c + len w) = LF :: spaces 4 :=
          (separator_cases W 4 (c + len w)).1.2 hwrap
        have e : [SP, SP, SP, SP] ++ p ++ (w ++ separator W 4 (c + len w) ++
            joinWith (next :: more) (List.map (separator W 4)
              (runningCounts W 4 (if c + len w > W then 4 else c + len w + 1)
                (next :: more)).dropLast))
            = ([SP, SP, SP, SP] ++ p ++ w) ++ LF :: ([SP, SP, SP, SP] ++ [] ++
                joinWith (next :: more) (List.map (separator W 4)
                  (runningCounts W 4 4 (next :: more)).dropLast)) := by
          rw [hsep, if_pos hwrap, spaces_four]; simp
        rw [e]
        intro l hl
        simp only [lines] at hl
        rw [Split_append_cons, Split_of_not_mem _ LF hline, List.singleton_append,
          List.mem_cons] at hl
        rcases hl with rfl | hl
        · exact hgood
        · exact ih 4 [] (by simp) (Or.inl rfl) (by simp) hrest l hl
      · have hsep : separator W 4 (c + len w) = [SP] :=
          (separator_cases W 4 (c + len w)).2.2 hwrap
        have e : [SP, SP, SP, SP] ++ p ++ (w ++ separator W 4 (c + len w) ++
            joinWith (next :: more) (List.map (separator W 4)
              (runningCounts W 4 (if c + len w > W then 4 else c + len w + 1)
                (next :: more)).dropLast))
            = [SP, SP, SP, SP] ++ (p ++ w ++ [SP]) ++
                joinWith (next :: more) (List.map (separator W 4)
                  (runningCounts W 4 (c + len w + 1) (next :: more)).dropLast) := by
          rw [hsep, if_neg hwrap]; simp
        rw [e]
        apply ih (c + len w + 1) (p ++ w ++ [SP]) _ _ (by simp) hrest
        · intro h
          rcases List.mem_append.1 h with h | h
          · rcases List.mem_append.1 h with h | h
            · exact hp h
            · exact hw3 h
          · exact absurd (List.mem_singleton.1 h) (by decide)
        · right
          rcases hstart with rfl | ⟨x, r, rfl, hx⟩
          · cases w with
            | nil => exact absurd rfl hw1
            | cons y ys => exact ⟨y, ys ++ [SP], by simp, fun e => hw2 (by simp [e])⟩
          · exact ⟨x, r ++ w ++ [SP], by simp, hx⟩

theorem Split_four_spaces (story : GoString) :
    Split (spaces 4 ++ story) SP = [] :: [] :: [] :: [] :: Split story SP := by
  rw [spaces_four]; simp [Split]

theorem joinWith_empty_word (W I c : Int) (next : GoString) (more : List GoString) :
    joinWith ([] :: next :: more)
        ((runningCounts W I c ([] :: next :: more)).dropLast.map (separator W I))
      = separator W I c ++ joinWith (next :: more)
          ((runningCounts W I (if c > W then I else c + 1) (next :: more)).dropLast.map
            (separator W I)) := by
  rw [runningCounts_dropLast_cons, List.map_cons, joinWith_cons_cons_sep]
  simp [len_nil]

/-- The output of `paragraph` on four spaces and a story, up to the first word
of the story. -/
theorem paragraph_story (u : UI) (story w1 : GoString) (ws : List GoString)
    (hs : Split story SP = w1 :: ws) :
    u.paragraph (spaces 4 ++ story) 4
      = separator u.width 4 0 ++ (separator u.width 4 (if 0 > u.width then 4 else 0 + 1) ++
        (separator u.width 4
            (if (if 0 > u.width then 4 else 0 + 1) > u.width then 4
              else (if 0 > u.width then 4 else 0 + 1) + 1) ++
          (separator u.width 4
              (if (if (if 0 > u.width then 4 else 0 + 1) > u.width then 4
                    else (if 0 > u.width then 4 else 0 + 1) + 1) > u.width then 4
                else (if (if 0 > u.width then 4 else 0 + 1) > u.width then 4
                    else (if 0 > u.width then 4 else 0 + 1) + 1) + 1) ++
            joinWith (w1 :: ws)
              ((runningCounts u.width 4
                  (if (if (if (if 0 > u.width then 4 else 0 + 1) > u.width then 4
                          else (if 0 > u.width then 4 else 0 + 1) + 1) > u.width then 4
                      else (if (if 0 > u.width then 4 else 0 + 1) > u.width then 4
                          else (if 0 > u.width then 4 else 0 + 1) + 1) + 1) > u.width then 4
                    else (if (if (if 0 > u.width then 4 else 0 + 1) > u.width then 4
                          else (if 0 > u.width then 4 else 0 + 1) + 1) > u.width then 4
                      else (if (if 0 > u.width then 4 else 0 + 1) > u.width then 4
                          else (if 0 > u.width then 4 else 0 + 1) + 1) + 1) + 1)
                  (w1 :: ws)).dropLast.map (separator u.width 4))))) := by
  rw [paragraph_eq, Split_four_spaces, hs, joinWith_empty_word, joinWith_empty_word,
    joinWith_empty_word, joinWith_empty_word]

/-- C20: for a story that is not empty, has no newline and whose words, split
on single spaces, are all non-empty, and for a width of at least 3, every line
of `paragraph(spaces(4) + story, 4)` starts with exactly four spaces followed by
a character other than a space; for a width below 3 the first line is made of
fewer than four spaces and nothing else. -/
theorem story_indent (u : UI) (story : GoString) (_hne : story ≠ [])
    (hw : ∀ w ∈ Split story SP, w ≠ []) (hn : LF ∉ story) :
    (3 ≤ u.width →
      ∀ l ∈ lines (u.paragraph (spaces 4 ++ story) 4), FourSpaceLine l) ∧
    (u.width < 3 →
      ∃ k, k < 4 ∧
        (lines (u.paragraph (spaces 4 ++ story) 4)).head? = some (List.replicate k SP)) := by
  cases hs : Split story SP with
  | nil => exact absurd hs (Split_ne_nil story SP)
  | cons w1 ws =>
    have hws : ∀ w ∈ w1 :: ws, w ≠ [] ∧ SP ∉ w ∧ LF ∉ w := by
      intro w hm
      rw [← hs] at hm
      exact ⟨hw w hm, Split_not_mem story SP w hm,
        fun h => hn (Split_mem_subset story SP w hm LF h)⟩
    have hp := paragraph_story u story w1 ws hs
    constructor
    · intro h3
      have c0 : ¬ (0 : Int) > u.width := by omega
      have c1 : ¬ (0 + 1 : Int) > u.width := by omega
      have c2 : ¬ (0 + 1 + 1 : Int) > u.width := by omega
      have c3 : ¬ (0 + 1 + 1 + 1 : Int) > u.width := by omega
      simp only [if_neg c0, if_neg c1, if_neg c2, if_neg c3] at hp
      have s0 := (separator_cases u.width 4 0).2.2 c0
      have s1 := (separator_cases u.width 4 (0 + 1)).2.2 c1
      have s2 := (separator_cases u.width 4 (0 + 1 + 1)).2.2 c2
      have s3 := (separator_cases u.width 4 (0 + 1 + 1 + 1)).2.2 c3
      rw [s0, s1, s2, s3] at hp
      have key := lines_FourSpace u.width (w1 :: ws) (0 + 1 + 1 + 1 + 1) [] (by simp)
        (Or.inl rfl) (by simp) hws
      rw [hp]
      simpa using key
    · intro h3
      have hsplit : ∀ (a b : GoString), LF ∉ a →
          (lines (a ++ LF :: b)).head? = some a := by
        intro a b ha
        unfold lines
        rw [Split_append_sep a b LF ha]; rfl
      by_cases c0 : (0 : Int) > u.width
      · have s0 := (separator_cases u.width 4 0).1.2 c0
        rw [s0] at hp
        refine ⟨0, by decide, ?_⟩
        rw [hp]
        exact hsplit [] _ (by simp)
      · have s0 := (separator_cases u.width 4 0).2.2 c0
        simp only [if_neg c0] at hp
        rw [s0] at hp
        by_cases c1 : (0 + 1 : Int) > u.width
        · have s1 := (separator_cases u.width 4 (0 + 1)).1.2 c1
          rw [s1] at hp
          refine ⟨1, by decide, ?_⟩
          rw [hp]
          exact hsplit [SP] _ (by decide)
        · have s1 := (separator_cases u.width 4 (0 + 1)).2.2 c1
          simp only [if_neg c1] at hp
          rw [s1] at hp
          by_cases c2 : (0 + 1 + 1 : Int) > u.width
          · have s2 := (separator_cases u.width 4 (0 + 1 + 1)).1.2 c2
            rw [s2] at hp
            refine ⟨2, by decide, ?_⟩
            rw [hp]
            exact hsplit [SP, SP] _ (by decide)
          · have s2 := (separator_cases u.width 4 (0 + 1 + 1)).2.2 c2
            simp only [if_neg c2] at hp
            rw [s2] at hp
            have c3 : (0 + 1 + 1 + 1 : Int) > u.width := by omega
            have s3 := (separator_cases u.width 4 (0 + 1 + 1 + 1)).1.2 c3
            rw [s3] at hp
            refine ⟨3, by decide, ?_⟩
            rw [hp]
            exact hsplit [SP, SP, SP] _ (by decide)

/-- Witness of C20: the story "ab cd" at width 3 and at width 2. -/
theorem story_indent_witness :
    lines ((New 3).paragraph (spaces 4 ++ lit "ab cd") 4) = [lit "    ab", lit "    cd"] ∧
    (∀ l ∈ lines ((New 3).paragraph (spaces 4 ++ lit "ab cd") 4), FourSpaceLine l) ∧
    lines ((New 2).paragraph (spaces 4 ++ lit "ab cd") 4)
      = [lit "   ", lit "    ab", lit "    cd"] :=
  ⟨by decide,
   (story_indent (New 3) (lit "ab cd") (by decide) (by decide) (by decide)).1 (by decide),
   by decide⟩

/-! ## The temporary file of `Edit` -/

theorem hexVal_hexDigit (d : Nat) (h : d < 16) : hexVal (hexDigit d) = some d := by
  unfold hexDigit
  by_cases h10 : d < 10
  · simp only [h10, if_true, hexVal]
    have : 0x30 ≤ 0x30 + d ∧ 0x30 + d ≤ 0x39 := by omega
    simp [this]
  · simp only [h10, if_false, hexVal]
    have h1 : ¬ (0x30 ≤ 0x61 + (d - 10) ∧ 0x61 + (d - 10) ≤ 0x39) := by omega
    have h2 : 0x61 ≤ 0x61 + (d - 10) ∧ 0x61 + (d - 10) ≤ 0x66 := by omega
    simp only [h1, h2, if_false, and_self, if_true]
    congr 1; omega

theorem hex4_u00 (r : Nat) (h : r < 256) :
    hex4 (Rune.valid 0x30) (Rune.valid 0x30) (hexDigit (r / 16)) (hexDigit (r % 16))
      = some r := by
  have h1 : hexVal (Rune.valid 0x30) = some 0 := by decide
  have h2 := hexVal_hexDigit (r / 16) (by omega)
  have h3 := hexVal_hexDigit (r % 16) (by omega)
  simp only [hex4, h1, h2, h3]
  congr 1; omega

/-- The decoder reads back what the encoder writes for one element. -/
theorem parseStringFrom_escapeRune (x : Rune) (tail : GoString) :
    parseStringFrom none (escapeRune x ++ tail)
      = (parseStringFrom none tail).map (fun p => (Rune.valid x.value :: p.1, p.2)) := by
  cases x with
  | invalid b =>
    have e : escapeRune (Rune.invalid b) ++ tail
        = Rune.valid 0x5C :: Rune.valid 0x75 :: Rune.valid 0x66 :: Rune.valid 0x66 ::
            Rune.valid 0x66 :: Rune.valid 0x64 :: tail := rfl
    have h4 : hex4 (Rune.valid 0x66) (Rune.valid 0x66) (Rune.valid 0x66) (Rune.valid 0x64)
        = some 0xFFFD := by decide
    rw [e]
    simp [parseStringFrom, h4, IsSurrogate, Rune.value, RuneError]
  | valid r =>
    unfold escapeRune
    by_cases c1 : r = 0x22
    · subst c1
      simp only [lit, if_true, if_false]
      rw [parseStringFrom.eq_def]
      simp [simpleEscape, Rune.value]
    by_cases c2 : r = 0x5C
    · subst c2
      simp only [lit, if_true, if_false]
      rw [parseStringFrom.eq_def]
      simp [simpleEscape, Rune.value]
    by_cases c3 : r = 0x0A
    · subst c3
      simp only [lit, if_true, if_false]
      rw [parseStringFrom.eq_def]
      simp [simpleEscape, Rune.value]
    by_cases c4 : r = 0x0D
    · subst c4
      simp only [lit, if_true, if_false]
      rw [parseStringFrom.eq_def]
      simp [simpleEscape, Rune.value]
    by_cases c5 : r = 0x09
    · subst c5
      simp only [lit, if_true, if_false]
      rw [parseStringFrom.eq_def]
      simp [simpleEscape, Rune.value]
    by_cases c6 : r < 0x20 ∨ r = 0x3C ∨ r = 0x3E ∨ r = 0x26
    · have hr : r < 256 := by omega
      have h4 := hex4_u00 r hr
      have hs : IsSurrogate r = false := by
        unfold IsSurrogate
        have : ¬ 0xD800 ≤ r := by omega
        simp [this]
      have e : lit "\\u00" ++ [hexDigit (r / 16), hexDigit (r % 16)] ++ tail
          = Rune.valid 0x5C :: Rune.valid 0x75 :: Rune.valid 0x30 :: Rune.valid 0x30 ::
              hexDigit (r / 16) :: hexDigit (r % 16) :: tail := rfl
      simp only [c1, c2, c3, c4, c5, c6, if_false, if_true]
      rw [e]
      simp [parseStringFrom, h4, hs, Rune.value]
    by_cases c7 : r = 0x2028
    · subst c7
      have h4 : hex4 (Rune.valid 0x32) (Rune.valid 0x30) (Rune.valid 0x32) (Rune.valid 0x38)
          = some 0x2028 := by decide
      have e : lit "\\u2028" ++ tail
          = Rune.valid 0x5C :: Rune.valid 0x75 :: Rune.valid 0x32 :: Rune.valid 0x30 ::
              Rune.valid 0x32 :: Rune.valid 0x38 :: tail := rfl
      simp only [if_false, if_true, c6]
      simp [e, parseStringFrom, h4, IsSurrogate, Rune.value]
    by_cases c8 : r = 0x2029
    · subst c8
      have h4 : hex4 (Rune.valid 0x32) (Rune.valid 0x30) (Rune.valid 0x32) (Rune.valid 0x39)
          = some 0x2029 := by decide
      have e : lit "\\u2029" ++ tail
          = Rune.valid 0x5C :: Rune.valid 0x75 :: Rune.valid 0x32 :: Rune.valid 0x30 ::
              Rune.valid 0x32 :: Rune.valid 0x39 :: tail := rfl
      simp only [if_false, if_true, c6]
      simp [e, parseStringFrom, h4, IsSurrogate, Rune.value]
    · have h20 : ¬ r < 0x20 := fun h => c6 (Or.inl h)
      simp only [c1, c2, c3, c4, c5, c6, c7, c8, if_false, List.singleton_append]
      rw [parseStringFrom.eq_def]
      simp [c1, c2, h20, Rune.value]

/-- The decoder reads back the string literal the encoder writes, but for the
ill-formed bytes, which come back as U+FFFD. -/
theorem parseString_jsonString (s : GoString) : ∀ rest : GoString,
    parseString ((s.map escapeRune).flatten ++ Rune.valid 0x22 :: rest)
      = some (sanitize s, rest) := by
  induction s with
  | nil =>
    intro rest
    unfold parseString
    rw [parseStringFrom.eq_def]
    simp [sanitize]
  | cons x more ih =>
    intro rest
    have := ih rest
    unfold parseString at this ⊢
    rw [List.map_cons, List.flatten_cons, List.append_assoc, parseStringFrom_escapeRune, this]
    simp [sanitize]

theorem skipSpace_cons_space (x : Rune) (rest : GoString) (h : isJSONSpace x = true) :
    skipSpace (x :: rest) = skipSpace rest := by
  simp [skipSpace, List.dropWhile, h]

theorem skipSpace_cons_token (x : Rune) (rest : GoString) (h : isJSONSpace x = false) :
    skipSpace (x :: rest) = x :: rest := by
  simp [skipSpace, List.dropWhile, h]

/-- A value of the encoder's shape: a space, then a string literal. -/
theorem parseValue_jsonString (fuel : Nat) (s rest : GoString) :
    parseValue (fuel + 1) (SP :: Rune.valid 0x22 :: ((s.map escapeRune).flatten
        ++ Rune.valid 0x22 :: rest))
      = some (JSON.string (sanitize s), rest) := by
  rw [parseValue, skipSpace_cons_space SP _ (by decide),
    skipSpace_cons_token (Rune.valid 0x22) _ (by decide)]
  simp [parseString_jsonString]

/-- A member of the encoder's shape: a newline and two spaces, the key, a colon
and the value. -/
theorem expect_key (rest : GoString) :
    expect (Rune.valid 0x22) (LF :: SP :: SP :: Rune.valid 0x22 :: rest) = some rest := by
  unfold expect
  rw [skipSpace_cons_space LF _ (by decide), skipSpace_cons_space SP _ (by decide),
    skipSpace_cons_space SP _ (by decide), skipSpace_cons_token (Rune.valid 0x22) _ (by decide)]
  simp

theorem expect_colon (rest : GoString) :
    expect (Rune.valid 0x3A) (Rune.valid 0x3A :: rest) = some rest := by
  unfold expect
  rw [skipSpace_cons_token (Rune.valid 0x3A) _ (by decide)]
  simp

theorem parseString_key (key rest : GoString)
    (h : (key.map escapeRune).flatten = key) (hv : sanitize key = key) :
    parseString (key ++ Rune.valid 0x22 :: rest) = some (key, rest) := by
  have := parseString_jsonString key rest
  rw [h, hv] at this
  exact this

/-- The text the encoder writes for the member `Story` and the end of the
object. -/
theorem Encode_shape (t : Task) :
    Encode t = Rune.valid 0x7B :: LF :: SP :: SP :: Rune.valid 0x22 ::
      (lit "Title" ++ Rune.valid 0x22 :: Rune.valid 0x3A :: SP :: Rune.valid 0x22 ::
        ((t.Title.map escapeRune).flatten ++ Rune.valid 0x22 :: Rune.valid 0x2C ::
          LF :: SP :: SP :: Rune.valid 0x22 ::
            (lit "Story" ++ Rune.valid 0x22 :: Rune.valid 0x3A :: SP :: Rune.valid 0x22 ::
              ((t.Story.map escapeRune).flatten ++ Rune.valid 0x22 ::
                LF :: Rune.valid 0x7D :: [LF])))) := by
  simp only [Encode, jsonString, List.append_assoc]
  rfl

theorem parseMembers_space (pv : GoString → Option (JSON × GoString)) (n : Nat)
    (x : Rune) (text : GoString) (h : isJSONSpace x = true) :
    parseMembers pv n (x :: text) = parseMembers pv n text := by
  cases n with
  | zero => rfl
  | succ m =>
    rw [parseMembers, parseMembers]
    unfold expect
    rw [skipSpace_cons_space x _ h]

theorem parseMembers_last (pv : GoString → Option (JSON × GoString)) (n : Nat)
    (key s rest : GoString)
    (hk : (key.map escapeRune).flatten = key) (hv : sanitize key = key)
    (hpv : ∀ s rest, pv (SP :: Rune.valid 0x22 :: ((s.map escapeRune).flatten
        ++ Rune.valid 0x22 :: rest)) = some (JSON.string (sanitize s), rest)) :
    parseMembers pv (n + 1)
        (LF :: SP :: SP :: Rune.valid 0x22 ::
          (key ++ Rune.valid 0x22 :: Rune.valid 0x3A :: SP :: Rune.valid 0x22 ::
            ((s.map escapeRune).flatten ++ Rune.valid 0x22 ::
              LF :: Rune.valid 0x7D :: rest)))
      = some ([(key, JSON.string (sanitize s))], rest) := by
  rw [parseMembers, expect_key]
  simp only
  rw [parseString_key key _ hk hv]
  simp only
  rw [expect_colon]
  simp only
  rw [hpv]
  simp only
  rw [skipSpace_cons_space LF _ (by decide),
    skipSpace_cons_token (Rune.valid 0x7D) _ (by decide)]
  simp

theorem parseMembers_more (pv : GoString → Option (JSON × GoString)) (n : Nat)
    (key s rest : GoString) (ms : List (GoString × JSON)) (rest' : GoString)
    (hk : (key.map escapeRune).flatten = key) (hv : sanitize key = key)
    (hpv : ∀ s rest, pv (SP :: Rune.valid 0x22 :: ((s.map escapeRune).flatten
        ++ Rune.valid 0x22 :: rest)) = some (JSON.string (sanitize s), rest))
    (hrest : parseMembers pv n rest = some (ms, rest')) :
    parseMembers pv (n + 1)
        (LF :: SP :: SP :: Rune.valid 0x22 ::
          (key ++ Rune.valid 0x22 :: Rune.valid 0x3A :: SP :: Rune.valid 0x22 ::
            ((s.map escapeRune).flatten ++ Rune.valid 0x22 :: Rune.valid 0x2C :: rest)))
      = some ((key, JSON.string (sanitize s)) :: ms, rest') := by
  rw [parseMembers, expect_key]
  simp only
  rw [parseString_key key _ hk hv]
  simp only
  rw [expect_colon]
  simp only
  rw [hpv]
  simp only
  rw [skipSpace_cons_token (Rune.valid 0x2C) _ (by decide)]
  simp [hrest]

/-- The decoder reads the text the encoder writes for a task as an object of two
members, `Title` and `Story`, each with the string of the field but for its
ill-formed bytes. -/
theorem parseValue_Encode (t : Task) (k : Nat) :
    parseValue (k + 3) (Encode t)
      = some (JSON.object [(lit "Title", JSON.string (sanitize t.Title)),
          (lit "Story", JSON.string (sanitize t.Story))], [LF]) := by
  have hpv : ∀ s rest, parseValue (k + 2) (SP :: Rune.valid 0x22 ::
      ((s.map escapeRune).flatten ++ Rune.valid 0x22 :: rest))
      = some (JSON.string (sanitize s), rest) :=
    fun s rest => parseValue_jsonString (k + 1) s rest
  have m2 := parseMembers_last (parseValue (k + 2)) k (lit "Story") t.Story [LF]
    (by decide) (by decide) hpv
  have m1 := parseMembers_more (parseValue (k + 2)) (k + 1) (lit "Title") t.Title _ _ _
    (by decide) (by decide) hpv m2
  rw [Encode_shape, parseValue, skipSpace_cons_token (Rune.valid 0x7B) _ (by decide)]
  simp only
  rw [skipSpace_cons_space LF _ (by decide), skipSpace_cons_space SP _ (by decide),
    skipSpace_cons_space SP _ (by decide), skipSpace_cons_token (Rune.valid 0x22) _ (by decide)]
  have q1 : ¬ (Rune.valid 0x7B = Rune.valid 0x22) := by decide
  have q2 : ¬ (Rune.valid 0x22 = Rune.valid 0x7D) := by decide
  simp only [q1, q2, if_false, if_true]
  rw [parseMembers_space _ _ LF _ (by decide), parseMembers_space _ _ SP _ (by decide),
    parseMembers_space _ _ SP _ (by decide)] at m1
  rw [m1]
  rfl

theorem sanitize_of_isValid (s : GoString) (h : ∀ x ∈ s, x.isValid = true) : sanitize s = s := by
  unfold sanitize
  conv_rhs => rw [← List.map_id s]
  apply List.map_congr_left
  intro x hx
  have := h x hx
  cases x with
  | valid r => rfl
  | invalid b => cases this

/-- Decoding what the encoder wrote for a task gives the task with every
ill-formed byte turned into U+FFFD, whatever the task decoded into. -/
theorem Decode_Encode (t t0 : Task) :
    Decode (Encode t) t0 = (⟨sanitize t.Title, sanitize t.Story⟩, none) := by
  have h2 : 2 ≤ (Encode t).length := by
    rw [Encode_shape]; simp
  obtain ⟨k, hk⟩ : ∃ k, (Encode t).length + 1 = k + 3 := ⟨(Encode t).length - 2, by omega⟩
  unfold Decode
  rw [hk, parseValue_Encode]
  have f1 : findField (lit "Title") = some Field.Title := by decide
  have f2 : findField (lit "Story") = some Field.Story := by decide
  simp [unmarshal, storeMember, f1, f2]

/-- C13, as stated, fails: a story that is one ill-formed byte comes back from
the temporary-file format as U+FFFD. -/
theorem roundtrip_loses_illformed_byte :
    (Decode (Encode ⟨lit "T", [Rune.invalid 0xFF]⟩) ⟨lit "T", [Rune.invalid 0xFF]⟩)
      = (⟨lit "T", [Rune.valid 0xFFFD]⟩, none) ∧
    ¬ ((Decode (Encode ⟨lit "T", [Rune.invalid 0xFF]⟩) ⟨lit "T", [Rune.invalid 0xFF]⟩).1.Story
      = [Rune.invalid 0xFF]) := by
  decide

/-- C13, amended: for every task whose title and story are well-formed UTF-8,
encoding the task to the temporary-file format and decoding the result gives a
task with the same title and story, whatever task it is decoded into. -/
theorem roundtrip_wellformed (t t0 : Task)
    (hT : ∀ x ∈ t.Title, x.isValid = true) (hS : ∀ x ∈ t.Story, x.isValid = true) :
    Decode (Encode t) t0 = (t, none) ∧
    (Decode (Encode t) t0).1.Title = t.Title ∧ (Decode (Encode t) t0).1.Story = t.Story := by
  rw [Decode_Encode, sanitize_of_isValid _ hT, sanitize_of_isValid _ hS]
  exact ⟨rfl, rfl, rfl⟩

/-- Witness of the amended C13, with characters the encoder escapes. -/
theorem roundtrip_wellformed_witness :
    Encode ⟨lit "a \"b\" <c>", lit "x\\y\nzé"⟩
      = lit "\x7b\n  \"Title\": \"a \\\"b\\\" \\u003cc\\u003e\",\n  \"Story\": \"x\\\\y\\nzé\"\n\x7d\n" ∧
    Decode (Encode ⟨lit "a \"b\" <c>", lit "x\\y\nzé"⟩) ⟨[], []⟩
      = (⟨lit "a \"b\" <c>", lit "x\\y\nzé"⟩, none) :=
  ⟨by decide,
   (roundtrip_wellformed ⟨lit "a \"b\" <c>", lit "x\\y\nzé"⟩ ⟨[], []⟩
      (by decide) (by decide)).1⟩

/-! ## `Edit` -/

/-- The ways a call of `Edit` ends: with an error from before the decoding and
the task as it was; with the file unreadable and the task as it was; or with the
task and the error that decoding the content left by the editor gives. -/
theorem Edit_task_cases (env : EditEnv) (t : Task) :
    ((t.Edit env).task = t ∧
      ∃ e, (t.Edit env).err = some e ∧ ∀ c, e ≠ EditError.failedToDecodeFile c) ∨
    ((t.Edit env).task = t ∧
      (t.Edit env).err = some (EditError.failedToDecodeFile DecodeError.read)) ∨
    (∃ content cmd, env.Run cmd (Encode t) = .ok content ∧
      (t.Edit env).task = (Decode content t).1 ∧
      (t.Edit env).err = (Decode content t).2.map EditError.failedToDecodeFile) := by
  unfold Task.Edit
  simp only
  split
  · exact Or.inl ⟨rfl, _, rfl, fun c h => by cases h⟩
  · split
    · exact Or.inl ⟨rfl, _, rfl, fun c h => by cases h⟩
    · split
      · exact Or.inl ⟨rfl, _, rfl, fun c h => by cases h⟩
      · split
        · exact Or.inl ⟨rfl, _, rfl, fun c h => by cases h⟩
        · split
          · exact Or.inl ⟨rfl, _, rfl, fun c h => by cases h⟩
          · split
            · exact Or.inr (Or.inl ⟨rfl, rfl⟩)
            · rename_i content hrun _ _ _ _
              exact Or.inr (Or.inr ⟨content, _, hrun, rfl, rfl⟩)

/-- C14: when the temporary file cannot be made, written or closed, or the
command that `Edit` runs (the shell on the editor and the temporary file)
cannot be started or exits with a status other than 0, `Edit` returns the
error of that step and leaves the task as it was, whatever any other command
would have done and whatever the file holds; so it does when the file cannot be
opened afterwards, and on every error but a failure to decode. -/
theorem Edit_failure_keeps_task (env : EditEnv) (t : Task) :
    (∀ e, env.TempFile (lit "*_" ++ ReplaceAll t.Title SP (Rune.valid 0x5F)) = .error e →
      t.Edit env = ⟨t, some (EditError.failedToOpenTempFile e), none⟩) ∧
    (∀ name e, env.TempFile (lit "*_" ++ ReplaceAll t.Title SP (Rune.valid 0x5F)) = .ok name →
      env.writeErr = some e →
      t.Edit env = ⟨t, some (EditError.failedToEncodeTask e), none⟩) ∧
    (∀ name e, env.TempFile (lit "*_" ++ ReplaceAll t.Title SP (Rune.valid 0x5F)) = .ok name →
      env.writeErr = none → env.closeErr = some e →
      t.Edit env = ⟨t, some (EditError.failedToCloseFile e), none⟩) ∧
    (∀ name e, env.TempFile (lit "*_" ++ ReplaceAll t.Title SP (Rune.valid 0x5F)) = .ok name →
      env.writeErr = none → env.closeErr = none →
      env.Run
          ⟨if len (TrimSpace (env.Getenv (lit "SHELL"))) = 0 then lit "sh"
            else TrimSpace (env.Getenv (lit "SHELL")),
           [lit "-c",
            (if len (TrimSpace (env.Getenv (lit "EDITOR"))) = 0 then lit "vim"
              else TrimSpace (env.Getenv (lit "EDITOR"))) ++ lit " " ++ name]⟩
          (Encode t) = .error e →
      t.Edit env = ⟨t, some (EditError.failedToExecuteEditor e),
        some ⟨if len (TrimSpace (env.Getenv (lit "SHELL"))) = 0 then lit "sh"
            else TrimSpace (env.Getenv (lit "SHELL")),
           [lit "-c",
            (if len (TrimSpace (env.Getenv (lit "EDITOR"))) = 0 then lit "vim"
              else TrimSpace (env.Getenv (lit "EDITOR"))) ++ lit " " ++ name]⟩⟩) ∧
    (∀ name content e,
      env.TempFile (lit "*_" ++ ReplaceAll t.Title SP (Rune.valid 0x5F)) = .ok name →
      env.writeErr = none → env.closeErr = none →
      env.Run
          ⟨if len (TrimSpace (env.Getenv (lit "SHELL"))) = 0 then lit "sh"
            else TrimSpace (env.Getenv (lit "SHELL")),
           [lit "-c",
            (if len (TrimSpace (env.Getenv (lit "EDITOR"))) = 0 then lit "vim"
              else TrimSpace (env.Getenv (lit "EDITOR"))) ++ lit " " ++ name]⟩
          (Encode t) = .ok content →
      env.openErr = some e →
      (t.Edit env).task = t ∧ (t.Edit env).err = some (EditError.failedToOpenFile e)) ∧
    (∀ e, (t.Edit env).err = some e → (∀ c, e ≠ EditError.failedToDecodeFile c) →
      (t.Edit env).task = t) := by
  refine ⟨?_, ?_, ?_, ?_, ?_, ?_⟩
  · intro e h
    simp only [Task.Edit, h]
  · intro name e h hw
    simp only [Task.Edit, h, hw]
  · intro name e h hw hc
    simp only [Task.Edit, h, hw, hc]
  · intro name e h hw hc hr
    simp only [Task.Edit, h, hw, hc, hr]
  · intro name content e h hw hc hr ho
    simp only [Task.Edit, h, hw, hc, hr, ho, and_self]
  · intro e he hne
    rcases Edit_task_cases env t with ⟨h, _⟩ | ⟨h, h'⟩ | ⟨content, cmd, _, _, h'⟩
    · exact h
    · exact h
    · rw [h', Option.map_eq_some'] at he
      obtain ⟨c, _, hc⟩ := he
      exact absurd hc.symm (hne c)

/-- Witness of C14: the command `sh -c "vim /tmp/*_a_b"` exits with status 1
while any other command would have left a file with another title. -/
theorem Edit_failure_keeps_task_witness :
    Task.Edit
        { editorKeeps (fun _ => []) with
          Run := fun cmd _ =>
            if cmd = ⟨lit "sh", [lit "-c", lit "vim /tmp/*_a_b"]⟩ then .error ⟨1⟩
            else .ok (lit "\x7b\"Title\": \"HACKED\"\x7d") }
        ⟨lit "a b", lit "s"⟩
      = ⟨⟨lit "a b", lit "s"⟩, some (EditError.failedToExecuteEditor ⟨1⟩),
          some ⟨lit "sh", [lit "-c", lit "vim /tmp/*_a_b"]⟩⟩ :=
  (Edit_failure_keeps_task
    { editorKeeps (fun _ => []) with
      Run := fun cmd _ =>
        if cmd = ⟨lit "sh", [lit "-c", lit "vim /tmp/*_a_b"]⟩ then .error ⟨1⟩
        else .ok (lit "\x7b\"Title\": \"HACKED\"\x7d") }
    ⟨lit "a b", lit "s"⟩).2.2.2.1 (lit "/tmp/*_a_b") ⟨1⟩ rfl rfl rfl rfl

theorem storeMember_get (f : Field) (st : Task × Option DecodeError) (m : GoString × JSON) :
    f.get (storeMember st m).1
      = if findField m.1 = some f then
          (match m.2 with
            | JSON.string s => s
            | _ => f.get st.1)
        else f.get st.1 := by
  unfold storeMember
  cases hf : findField m.1 with
  | none => simp
  | some g =>
    cases hm : m.2 <;> cases g <;> cases f <;> simp [Field.get]

theorem foldl_storeMember_get (f : Field) (t0 : GoString) (ms : List (GoString × JSON)) :
    ∀ (st : Task × Option DecodeError) (a : Option GoString), f.get st.1 = a.getD t0 →
      f.get (ms.foldl storeMember st).1
        = (ms.foldl (fun acc m =>
            if findField m.1 = some f then
              match m.2 with
              | JSON.string s => some s
              | _ => acc
            else acc) a).getD t0 := by
  induction ms with
  | nil => intro st a h; exact h
  | cons m rest ih =>
    intro st a h
    rw [List.foldl_cons, List.foldl_cons]
    apply ih
    rw [storeMember_get]
    by_cases hf : findField m.1 = some f
    · simp only [hf, if_true]
      cases hm : m.2 <;> simp [h]
    · simp only [hf, if_false]
      exact h

/-- After `Decode`, with or without error, a field holds the value the file
gives it, or what it held before if the file gives it none. -/
theorem Decode_get (f : Field) (content : GoString) (t : Task) :
    f.get (Decode content t).1 = (fileValue f content).getD (f.get t) := by
  unfold Decode fileValue
  cases hp : parseValue (content.length + 1) content with
  | none => simp
  | some p =>
    obtain ⟨v, rest⟩ := p
    cases v with
    | object ms =>
      simp only [unmarshal, fieldValue]
      exact foldl_storeMember_get f (f.get t) ms (t, none) none rfl
    | null => simp [unmarshal]
    | bool b => simp [unmarshal]
    | number => simp [unmarshal]
    | string x => simp [unmarshal]
    | array a => simp [unmarshal]

/-- C15, as stated, fails: with the same file content, in which the story has
been deleted, `Edit` succeeds on two tasks and leaves each its own story. -/
theorem Edit_keeps_deleted_field :
    (Task.Edit (editorWrites (lit "\x7b\n  \"Title\": \"NEW\"\n\x7d\n"))
        ⟨lit "OLD", lit "first story"⟩).err = none ∧
    (Task.Edit (editorWrites (lit "\x7b\n  \"Title\": \"NEW\"\n\x7d\n"))
        ⟨lit "OLD", lit "second story"⟩).err = none ∧
    (Task.Edit (editorWrites (lit "\x7b\n  \"Title\": \"NEW\"\n\x7d\n"))
        ⟨lit "OLD", lit "first story"⟩).task = ⟨lit "NEW", lit "first story"⟩ ∧
    (Task.Edit (editorWrites (lit "\x7b\n  \"Title\": \"NEW\"\n\x7d\n"))
        ⟨lit "OLD", lit "second story"⟩).task = ⟨lit "NEW", lit "second story"⟩ ∧
    ¬ ((Task.Edit (editorWrites (lit "\x7b\n  \"Title\": \"NEW\"\n\x7d\n"))
          ⟨lit "OLD", lit "first story"⟩).task.Story
        = (Task.Edit (editorWrites (lit "\x7b\n  \"Title\": \"NEW\"\n\x7d\n"))
          ⟨lit "OLD", lit "second story"⟩).task.Story) := by
  decide

/-- C15, amended: on full success of `Edit`, a field to which the content of
the file gives a value holds that value afterwards, which is determined by the
content of the file alone; a field to which the file gives no value (deleted by
the user, or `null`) keeps the value the task held before the call. -/
theorem Edit_success_fields (env : EditEnv) (t : Task) (h : (t.Edit env).err = none) :
    ∃ content cmd, env.Run cmd (Encode t) = .ok content ∧
      (t.Edit env).task.Title = (fileValue Field.Title content).getD t.Title ∧
      (t.Edit env).task.Story = (fileValue Field.Story content).getD t.Story ∧
      (∀ s, fileValue Field.Title content = some s → (t.Edit env).task.Title = s) ∧
      (∀ s, fileValue Field.Story content = some s → (t.Edit env).task.Story = s) ∧
      (fileValue Field.Title content = none → (t.Edit env).task.Title = t.Title) ∧
      (fileValue Field.Story content = none → (t.Edit env).task.Story = t.Story) := by
  rcases Edit_task_cases env t with ⟨_, e, he, _⟩ | ⟨_, he⟩ | ⟨content, cmd, hrun, ht, _⟩
  · rw [h] at he; cases he
  · rw [h] at he; cases he
  · have h1 : (t.Edit env).task.Title = (fileValue Field.Title content).getD t.Title := by
      rw [ht]; exact Decode_get Field.Title content t
    have h2 : (t.Edit env).task.Story = (fileValue Field.Story content).getD t.Story := by
      rw [ht]; exact Decode_get Field.Story content t
    refine ⟨content, cmd, hrun, h1, h2, ?_, ?_, ?_, ?_⟩
    · intro s hs; rw [h1, hs]; rfl
    · intro s hs; rw [h2, hs]; rfl
    · intro hs; rw [h1, hs]; rfl
    · intro hs; rw [h2, hs]; rfl

/-- Witness of the amended C15: the user changed the title and deleted the
story. -/
theorem Edit_success_fields_witness :
    fileValue Field.Title (lit "\x7b\n  \"Title\": \"NEW\"\n\x7d\n") = some (lit "NEW") ∧
    fileValue Field.Story (lit "\x7b\n  \"Title\": \"NEW\"\n\x7d\n") = none ∧
    ∃ content cmd,
      (editorWrites (lit "\x7b\n  \"Title\": \"NEW\"\n\x7d\n")).Run cmd
          (Encode ⟨lit "OLD", lit "first story"⟩) = .ok content ∧
      (Task.Edit (editorWrites (lit "\x7b\n  \"Title\": \"NEW\"\n\x7d\n"))
          ⟨lit "OLD", lit "first story"⟩).task.Title
        = (fileValue Field.Title content).getD (lit "OLD") ∧
      (Task.Edit (editorWrites (lit "\x7b\n  \"Title\": \"NEW\"\n\x7d\n"))
          ⟨lit "OLD", lit "first story"⟩).task.Story
        = (fileValue Field.Story content).getD (lit "first story") :=
  ⟨by decide, by decide,
   let ⟨content, cmd, h1, h2, h3, _⟩ :=
     Edit_success_fields (editorWrites (lit "\x7b\n  \"Title\": \"NEW\"\n\x7d\n"))
       ⟨lit "OLD", lit "first story"⟩ (by decide)
   ⟨content, cmd, h1, h2, h3⟩⟩

theorem len_eq_zero (s : GoString) : len s = 0 ↔ s = [] := by
  cases s with
  | nil => simp [len]
  | cons x rest =>
    have hx : 1 ≤ x.size := by
      cases x with
      | valid r =>
        show 1 ≤ RuneLen r
        unfold RuneLen; split_ifs <;> omega
      | invalid b => exact le_refl _
    have : len (x :: rest) = (x.size : Int) + len rest := by
      simp [len]
    have h2 := len_nonneg rest
    constructor
    · intro h; rw [this] at h; omega
    · intro h; cases h

/-- C16: once the temporary file is written and closed, the child that `Edit`
runs is the shell with the two arguments "-c" and the editor, a space and the
name of the temporary file; the shell is the trimmed value of SHELL, or "sh" if
that is empty, the editor the trimmed value of EDITOR, or "vim" if that is
empty; a value of white space only counts as empty. -/
theorem Edit_command (env : EditEnv) (t : Task) (name : GoString)
    (hT : env.TempFile (lit "*_" ++ ReplaceAll t.Title SP (Rune.valid 0x5F)) = .ok name)
    (hw : env.writeErr = none) (hc : env.closeErr = none) :
    (t.Edit env).cmd = some
      ⟨if TrimSpace (env.Getenv (lit "SHELL")) = [] then lit "sh"
        else TrimSpace (env.Getenv (lit "SHELL")),
       [lit "-c",
        (if TrimSpace (env.Getenv (lit "EDITOR")) = [] then lit "vim"
          else TrimSpace (env.Getenv (lit "EDITOR"))) ++ [SP] ++ name]⟩ ∧
    ((∀ x ∈ env.Getenv (lit "SHELL"), x.isSpace = true) →
      ∃ args, (t.Edit env).cmd = some ⟨lit "sh", args⟩) ∧
    ((∀ x ∈ env.Getenv (lit "EDITOR"), x.isSpace = true) →
      ∃ shell, (t.Edit env).cmd = some ⟨shell, [lit "-c", lit "vim" ++ [SP] ++ name]⟩) := by
  have key : (t.Edit env).cmd = some
      ⟨if TrimSpace (env.Getenv (lit "SHELL")) = [] then lit "sh"
        else TrimSpace (env.Getenv (lit "SHELL")),
       [lit "-c",
        (if TrimSpace (env.Getenv (lit "EDITOR")) = [] then lit "vim"
          else TrimSpace (env.Getenv (lit "EDITOR"))) ++ [SP] ++ name]⟩ := by
    unfold Task.Edit
    simp only [hT, hw, hc, len_eq_zero, lit_space]
    split
    · rfl
    · split
      · rfl
      · split <;> rfl
  refine ⟨key, ?_, ?_⟩
  · intro hs
    rw [key, if_pos (TrimSpace_eq_nil_of_all_space _ hs)]
    exact ⟨_, rfl⟩
  · intro hs
    rw [key, if_pos (TrimSpace_eq_nil_of_all_space _ hs)]
    exact ⟨_, rfl⟩

/-- Witness of C16: SHELL is " /bin/zsh " and EDITOR is unset. -/
theorem Edit_command_witness :
    (Task.Edit (editorKeeps (fun k => if k = lit "SHELL" then lit " /bin/zsh\n" else []))
        ⟨lit "a b", lit "s"⟩).cmd
      = some ⟨lit "/bin/zsh", [lit "-c", lit "vim /tmp/*_a_b"]⟩ :=
  (Edit_command (editorKeeps (fun k => if k = lit "SHELL" then lit " /bin/zsh\n" else []))
    ⟨lit "a b", lit "s"⟩ (lit "/tmp/*_a_b") rfl rfl rfl).1

end Pm
